import Mathlib

/- Verification development for the chore-assignment engine in `chores.py`.

   Modelling conventions:
   * people and chores are strings, as in the source;
   * preference tables `prefs[name][chore]` are total functions
     `String → String → ℚ`; the float literal `1e-10` is modelled as the
     exact rational `10⁻¹⁰`;
   * `names.index(x)` is modelled by `List.indexOf`, and list reads by
     `List.getD` with a `""` default (the source only reads in range on the
     inputs considered by the theorems below);
   * the recursions of `seek_loop` (depth bounded by the number of people)
     and of the `improve` while-loop (bounded via the strict misery decrease)
     are given explicit fuel; the top-level wrappers supply fuel that the
     termination theorems prove sufficient. -/

/-- The epsilon tolerance `1e-10` of `seek_loop`, as an exact rational. -/
def epsq : ℚ := 1 / 10 ^ 10

/-- The chore currently assigned to `n`: `chores[names.index(n)]`. -/
def choreOf (names chores : List String) (n : String) : String :=
  chores.getD (names.indexOf n) ""

/-- `prefs[n][chores[names.index(n)]]`, the current misery of person `n`. -/
def miseryOf (prefs : String → String → ℚ) (names chores : List String) (n : String) : ℚ :=
  prefs n (choreOf names chores n)

/-- The `desired_switches` list of `seek_loop`: people whose chore the current
person wants, i.e. people not already in the branch (minus its root) whose
chore costs at most the current misery, minus `1e-10` when the branch has not
yet accumulated any improvement. -/
def desiredSwitches (prefs : String → String → ℚ) (names chores : List String)
    (curr : String) (pai : List String) (iso : ℚ) : List String :=
  ((names.zip chores).filter fun nc =>
    decide (nc.1 ∉ curr :: pai.drop 1) &&
    decide (prefs curr nc.2 ≤
      miseryOf prefs names chores curr - (if iso = 0 then epsq else 0))).map Prod.fst

/-- `possibilities[np.argmax([p[1] for p in possibilities])]`: the first entry
realizing the maximal improvement, if any. -/
def bestPoss (ps : List (List String × ℚ)) : Option (List String × ℚ) :=
  ps.foldl (fun acc p =>
    match acc with
    | none => some p
    | some q => if q.2 < p.2 then some p else some q) none

/-- The body of the `for n in desired_switches` loop of `seek_loop`: either
close the loop back to its root, or recurse (`rec` is the recursive call). -/
def seekBranch (prefs : String → String → ℚ) (names chores : List String) (largeloop : Bool)
    (rec : String → List String → ℚ → Option (List String) × ℚ)
    (curr : String) (pai : List String) (iso : ℚ) (n : String) :
    Option (List String × ℚ) :=
  if pai.head? = some n then
    some (pai ++ [curr],
      iso + miseryOf prefs names chores curr - prefs curr (choreOf names chores n))
  else if largeloop || pai.isEmpty then
    match rec n (pai ++ [curr])
        (iso + miseryOf prefs names chores curr - prefs curr (choreOf names chores n)) with
    | (some loop, imp) => some (loop, imp)
    | (none, _) => none
  else none

/-- Fuelled translation of `seek_loop(names, chores, prefs, curr_person,
people_already_included, improvement_so_far, largeloop)`.  `(none, 0)` stands
for the Python `(False, 0)`. -/
def seekLoopF (prefs : String → String → ℚ) (names chores : List String) (largeloop : Bool) :
    ℕ → String → List String → ℚ → Option (List String) × ℚ
  | 0, _, _, _ => (none, 0)
  | fuel + 1, curr, pai, iso =>
    match bestPoss ((desiredSwitches prefs names chores curr pai iso).filterMap
        (seekBranch prefs names chores largeloop
          (fun n pai1 iso1 => seekLoopF prefs names chores largeloop fuel n pai1 iso1)
          curr pai iso)) with
    | some (loop, imp) => (some loop, imp)
    | none => (none, 0)

/-- `seek_loop` with its default arguments `people_already_included=[]`,
`improvement_so_far=0`.  The recursion depth of the source is bounded by the
number of people (the branch never revisits a person), so `names.length + 1`
units of fuel reproduce it. -/
def seek_loop (prefs : String → String → ℚ) (names chores : List String)
    (curr : String) (largeloop : Bool) : Option (List String) × ℚ :=
  seekLoopF prefs names chores largeloop (names.length + 1) curr [] 0

/-- `misery(names, chores, prefs)` from the source is the *average* misery;
`totalCost` is the sum it divides. -/
def totalCost (prefs : String → String → ℚ) (names chores : List String) : ℚ :=
  ((names.zip chores).map fun nc => prefs nc.1 nc.2).sum

/-- `misery(names, chores, prefs) = sum(prefs[n][c] for n,c in zip(names,chores))/len(chores)`. -/
def misery (prefs : String → String → ℚ) (names chores : List String) : ℚ :=
  totalCost prefs names chores / (chores.length : ℚ)

/-- One application of a found loop inside `improve`:
`nchore = chores[names.index(n)]`; each person in the loop receives the chore
of the next one (reads happen on the progressively updated list, exactly as in
the source); the last person receives `nchore`. -/
def applyLoop (names loop : List String) (asker : String) (cs : List String) : List String :=
  let nchore := cs.getD (names.indexOf asker) ""
  let cs1 := (loop.zip loop.tail).foldl
    (fun c p => c.set (names.indexOf p.1) (c.getD (names.indexOf p.2) "")) cs
  cs1.set (names.indexOf (loop.getLastD "")) nchore

/-- The body of the `for n in asking_order` loop of `improve`: state is
`(chores, made_trade, historical_misery)`. -/
def askStep (prefs : String → String → ℚ) (names : List String) (largeloop : Bool)
    (st : List String × Bool × List ℚ) (n : String) : List String × Bool × List ℚ :=
  match seek_loop prefs names st.1 n largeloop with
  | (some loop, _) =>
    let c1 := applyLoop names loop n st.1
    (c1, true, st.2.2 ++ [misery prefs names c1])
  | (none, _) => st

/-- One full pass of `improve` over the asking order. -/
def improvePass (prefs : String → String → ℚ) (names : List String) (largeloop : Bool)
    (order : List String) (c : List String) (h : List ℚ) : List String × Bool × List ℚ :=
  order.foldl (askStep prefs names largeloop) (c, false, h)

/-- The `while True` loop of `improve`, with explicit fuel: keep making passes
until a pass applies no trade. -/
def improveLoop (prefs : String → String → ℚ) (names : List String) (largeloop : Bool)
    (order : List String) : ℕ → List String → List ℚ → List String × List ℚ
  | 0, c, h => (c, h)
  | fuel + 1, c, h =>
    let st := improvePass prefs names largeloop order c h
    if st.2.1 then improveLoop prefs names largeloop order fuel st.1 st.2.2 else (c, h)

/-- `restricted_askers if restricted_askers else names`: `None` and the empty
list are both falsy in Python, so both fall back to `names`. -/
def resolveAskers : Option (List String) → List String → List String
  | none, names => names
  | some l, names => if l.isEmpty then names else l

/-- `sorted(restricted_askers, key=lambda n: -prefs[n][chores[names.index(n)]])`:
a stable sort by descending current misery. -/
def askingOrder (prefs : String → String → ℚ) (names chores askers : List String) :
    List String :=
  askers.mergeSort fun a b =>
    decide (miseryOf prefs names chores b ≤ miseryOf prefs names chores a)

/-- Least cost person `n` can have among the chores of `chores0`. -/
def minCostOf (prefs : String → String → ℚ) (n : String) (chores0 : List String) : ℚ :=
  match chores0 with
  | [] => 0
  | c :: rest => (rest.map (prefs n)).foldl min (prefs n c)

/-- A lower bound for the total cost of any assignment drawing on the chores of
`chores0`. -/
def lowerBound (prefs : String → String → ℚ) (names chores0 : List String) : ℚ :=
  (names.map fun n => minCostOf prefs n chores0).sum

/-- A natural number strictly above the rational `q`. -/
def natBound (q : ℚ) : ℕ := q.num.toNat + 1

/-- Fuel sufficient for the `improve` while-loop: every applied trade lowers
the total cost by at least `epsq`, which cannot happen more than
`(totalCost - lowerBound) / epsq` times. -/
def fuelFor (prefs : String → String → ℚ) (names chores : List String) : ℕ :=
  natBound ((totalCost prefs names chores - lowerBound prefs names chores) / epsq) + 1

/-- `improve(names, chores, prefs, restricted_askers, largeloop)` together with
the `historical_misery` record it keeps. -/
def improveFull (prefs : String → String → ℚ) (names chores : List String)
    (restricted : Option (List String)) (largeloop : Bool) : List String × List ℚ :=
  let order := askingOrder prefs names chores (resolveAskers restricted names)
  improveLoop prefs names largeloop order (fuelFor prefs names chores) chores
    [misery prefs names chores]

/-- The chores list returned by `improve`. -/
def improve (prefs : String → String → ℚ) (names chores : List String)
    (restricted : Option (List String)) (largeloop : Bool) : List String :=
  (improveFull prefs names chores restricted largeloop).1

/-- Misery reduction for `u` when taking over the chore of `v`. -/
def stepGain (prefs : String → String → ℚ) (names chores : List String) (u v : String) : ℚ :=
  miseryOf prefs names chores u - prefs u (choreOf names chores v)

/-- Accumulated improvement along a chain of people, each taking the chore of
the next. -/
def pathGain (prefs : String → String → ℚ) (names chores : List String) : List String → ℚ
  | u :: v :: rest => stepGain prefs names chores u v + pathGain prefs names chores (v :: rest)
  | _ => 0

/-- Accumulated improvement of a closed loop: the chain improvement plus the
closing step from the last person back to the first. -/
def cycleGain (prefs : String → String → ℚ) (names chores : List String)
    (loop : List String) : ℚ :=
  match loop with
  | [] => 0
  | _ :: _ =>
    pathGain prefs names chores loop +
      stepGain prefs names chores (loop.getLastD "") (loop.headD "")

theorem bestPoss_mem_aux (ps : List (List String × ℚ)) :
    ∀ (acc : Option (List String × ℚ)) (q : List String × ℚ),
      ps.foldl (fun acc p =>
        match acc with
        | none => some p
        | some r => if r.2 < p.2 then some p else some r) acc = some q →
      acc = some q ∨ q ∈ ps := by
  induction ps with
  | nil => intro acc q h; exact Or.inl h
  | cons p ps ih =>
    intro acc q h
    rcases ih _ q h with h1 | h1
    · match acc with
      | none =>
        simp only at h1
        exact Or.inr (by simp [← Option.some_inj.mp h1])
      | some r =>
        simp only at h1
        split at h1
        · exact Or.inr (by simp [← Option.some_inj.mp h1])
        · exact Or.inl h1
    · exact Or.inr (List.mem_cons_of_mem _ h1)

theorem bestPoss_mem {ps : List (List String × ℚ)} {q : List String × ℚ}
    (h : bestPoss ps = some q) : q ∈ ps := by
  rcases bestPoss_mem_aux ps none q h with h1 | h1
  · exact absurd h1 (by simp)
  · exact h1

theorem mem_desiredSwitches {prefs : String → String → ℚ} {names chores : List String}
    {curr n : String} {pai : List String} {iso : ℚ}
    (hnd : names.Nodup) (hlen : names.length = chores.length)
    (h : n ∈ desiredSwitches prefs names chores curr pai iso) :
    n ∈ names ∧ n ∉ curr :: pai.drop 1 ∧
      prefs curr (choreOf names chores n) ≤
        miseryOf prefs names chores curr - (if iso = 0 then epsq else 0) := by
  unfold desiredSwitches at h
  rcases List.mem_map.mp h with ⟨nc, hmem, rfl⟩
  rcases List.mem_filter.mp hmem with ⟨hzip, hcond⟩
  rcases List.mem_iff_getElem.mp hzip with ⟨i, hi, hget⟩
  have hi1 : i < names.length := by
    have := hi; simpa [List.length_zip, hlen] using this
  have hi2 : i < chores.length := by omega
  have hpair : nc = (names[i], chores[i]) := by
    rw [← hget]; exact List.getElem_zip
  have hn : nc.1 = names[i] := by rw [hpair]
  have hc : nc.2 = chores[i] := by rw [hpair]
  have hchore : choreOf names chores nc.1 = nc.2 := by
    rw [hn, hc]
    unfold choreOf
    rw [List.indexOf_getElem hnd i hi1]
    exact List.getD_eq_getElem _ _ hi2
  rw [Bool.and_eq_true, decide_eq_true_eq, decide_eq_true_eq] at hcond
  refine ⟨hn ▸ List.getElem_mem hi1, hcond.1, ?_⟩
  rw [hchore]; exact hcond.2

theorem matchBest_inv {ps : List (List String × ℚ)} {loop : List String} {imp : ℚ}
    (h : (match bestPoss ps with
          | some (l, i) => (some l, i)
          | none => ((none : Option (List String)), (0 : ℚ))) = (some loop, imp)) :
    (loop, imp) ∈ ps := by
  rcases hbp : bestPoss ps with _ | ⟨l, i⟩
  · rw [hbp] at h; simp at h
  · rw [hbp] at h
    simp only [Prod.mk.injEq, Option.some_inj] at h
    obtain ⟨h1, h2⟩ := h
    subst h1; subst h2
    exact bestPoss_mem hbp

theorem pathGain_cons_cons (prefs : String → String → ℚ) (names chores : List String)
    (u v : String) (l : List String) :
    pathGain prefs names chores (u :: v :: l) =
      stepGain prefs names chores u v + pathGain prefs names chores (v :: l) := rfl


theorem getLastD_cons_cons (a b : String) (l : List String) :
    (a :: b :: l).getLastD "" = (b :: l).getLastD "" := by
  simp [List.getLastD_cons]


theorem headD_append_of_head (pai : List String) (n curr : String)
    (h : pai.head? = some n) : (pai ++ [curr]).headD "" = n := by
  cases pai with
  | nil => simp at h
  | cons p t =>
    have hp : p = n := by simpa using h
    simp [hp]

theorem seekLoopF_sound (prefs : String → String → ℚ) (names chores : List String)
    (ll : Bool) (hnd : names.Nodup) (hlen : names.length = chores.length) :
    ∀ (fuel : ℕ) (curr : String) (pai : List String) (iso : ℚ)
      (loop : List String) (imp : ℚ),
      (pai ++ [curr]).Nodup → (∀ x ∈ pai, x ∈ names) → curr ∈ names →
      (iso = 0 ∨ epsq ≤ iso) →
      seekLoopF prefs names chores ll fuel curr pai iso = (some loop, imp) →
      ∃ ext : List String,
        loop = pai ++ curr :: ext ∧
        (∀ x ∈ curr :: ext, x ∈ names) ∧
        loop.Nodup ∧
        imp = iso + pathGain prefs names chores (curr :: ext) +
          stepGain prefs names chores ((curr :: ext).getLastD "") (loop.headD "") ∧
        epsq ≤ imp ∧
        (∀ m : ℕ, 0 ≤ pathGain prefs names chores ((curr :: ext).take m)) ∧
        (∀ k : ℕ, k < (curr :: ext).length →
          prefs ((curr :: ext).getD k "")
              (choreOf names chores (((curr :: ext) ++ [loop.headD ""]).getD (k+1) "")) ≤
            miseryOf prefs names chores ((curr :: ext).getD k "") -
              (if iso + pathGain prefs names chores ((curr :: ext).take (k+1)) = 0
               then epsq else 0)) := by
  intro fuel
  induction fuel with
  | zero =>
    intro curr pai iso loop imp _ _ _ _ h
    simp [seekLoopF] at h
  | succ fuel ih =>
    intro curr pai iso loop imp hnodup hpai hcurr hiso h
    rw [seekLoopF] at h
    have hm := matchBest_inv h
    rcases List.mem_filterMap.mp hm with ⟨n, hnds, hbody⟩
    obtain ⟨hnnames, hnnotin, hncond⟩ := mem_desiredSwitches hnd hlen hnds
    have hne_curr : n ≠ curr := fun he => hnnotin (by simp [he])
    have hguard_nonneg : (0:ℚ) ≤ (if iso = 0 then epsq else 0) := by
      split
      · norm_num [epsq]
      · exact le_refl 0
    have hstep_ge : (if iso = 0 then epsq else 0) ≤
        miseryOf prefs names chores curr - prefs curr (choreOf names chores n) := by
      linarith [hncond]
    have hstep_ge0 : (0:ℚ) ≤
        miseryOf prefs names chores curr - prefs curr (choreOf names chores n) :=
      le_trans hguard_nonneg hstep_ge
    have hstep_eps : iso = 0 → epsq ≤
        miseryOf prefs names chores curr - prefs curr (choreOf names chores n) := by
      intro h0; simpa [h0] using hstep_ge
    unfold seekBranch at hbody
    by_cases hclose : pai.head? = some n
    · -- the branch closes the loop back to the root of the branch
      rw [if_pos hclose] at hbody
      simp only [Option.some_inj, Prod.mk.injEq] at hbody
      obtain ⟨hl, himp⟩ := hbody
      have hhead : loop.headD "" = n := by
        rw [← hl]; exact headD_append_of_head pai n curr hclose
      refine ⟨[], by rw [← hl], ?_, ?_, ?_, ?_, ?_, ?_⟩
      · intro x hx
        simp only [List.mem_cons, List.not_mem_nil, or_false] at hx
        exact hx ▸ hcurr
      · rw [← hl]; exact hnodup
      · rw [hhead, ← himp]
        simp only [pathGain, stepGain, List.getLastD_cons, List.getLastD_nil]
        ring
      · rw [← himp]
        rcases hiso with h0 | hge
        · have := hstep_eps h0; rw [h0]; linarith
        · linarith
      · intro m
        rcases m with _ | m <;> simp [pathGain]
      · intro k hk
        have hk0 : k = 0 := by simpa using Nat.lt_one_iff.mp (by simpa using hk)
        subst hk0
        simp only [List.getD_cons_zero, List.cons_append, List.nil_append,
          List.getD_cons_succ, hhead, List.take_succ_cons, List.take_nil]
        simpa [pathGain] using hncond
    · -- the branch recurses
      rw [if_neg hclose] at hbody
      by_cases hll : (ll || pai.isEmpty) = true
      · rw [if_pos hll] at hbody
        simp only at hbody
        rcases hrec : seekLoopF prefs names chores ll fuel n (pai ++ [curr])
            (iso + miseryOf prefs names chores curr -
              prefs curr (choreOf names chores n)) with ⟨o, i2⟩
        rw [hrec] at hbody
        rcases o with _ | loop2
        · simp at hbody
        simp only [Option.some_inj, Prod.mk.injEq] at hbody
        obtain ⟨rfl, rfl⟩ := hbody
        have hn_notin : n ∉ pai ++ [curr] := by
          intro hmem
          rcases List.mem_append.mp hmem with hmem | hmem
          · rcases pai with _ | ⟨p0, ptl⟩
            · simp at hmem
            · rcases List.mem_cons.mp hmem with he | hmem
              · exact hclose (by simp [he])
              · exact hnnotin (by simp [hmem])
          · exact hne_curr (by simpa using hmem)
        have hnodup1 : ((pai ++ [curr]) ++ [n]).Nodup := by
          rw [List.nodup_append]
          exact ⟨hnodup, List.nodup_singleton n,
            by intro x hx hx1; simp at hx1; exact hn_notin (hx1 ▸ hx)⟩
        have hpai1 : ∀ x ∈ pai ++ [curr], x ∈ names := by
          intro x hx
          rcases List.mem_append.mp hx with hx | hx
          · exact hpai x hx
          · simpa using (by simpa using hx : x = curr) ▸ hcurr
        have hiso1 : (iso + miseryOf prefs names chores curr -
            prefs curr (choreOf names chores n) = 0) ∨
            epsq ≤ iso + miseryOf prefs names chores curr -
              prefs curr (choreOf names chores n) := by
          right
          rcases hiso with h0 | hge
          · have := hstep_eps h0; rw [h0]; linarith
          · linarith
        obtain ⟨ext2, hexteq, hextmem, hnodup2, himp2, heps2, hpg2, hstep2⟩ :=
          ih n (pai ++ [curr]) _ _ _ hnodup1 hpai1 hnnames hiso1 hrec
        have hsg : stepGain prefs names chores curr n =
            miseryOf prefs names chores curr - prefs curr (choreOf names chores n) := rfl
        have hsg_nonneg : 0 ≤ stepGain prefs names chores curr n := by
          rw [hsg]; linarith
        refine ⟨n :: ext2, by rw [hexteq]; simp, ?_, hnodup2, ?_, heps2, ?_, ?_⟩
        · intro x hx
          rcases List.mem_cons.mp hx with he | hx
          · exact he ▸ hcurr
          · exact hextmem x hx
        · rw [himp2, pathGain_cons_cons, getLastD_cons_cons, hsg]
          ring
        · intro m
          rcases m with _ | m
          · simp [pathGain]
          rcases m with _ | m
          · simp [pathGain]
          rw [List.take_succ_cons, List.take_succ_cons, pathGain_cons_cons]
          have := hpg2 (m + 1)
          rw [List.take_succ_cons] at this
          linarith
        · intro k hk
          rcases k with _ | k
          · simp only [List.getD_cons_zero, List.cons_append, List.getD_cons_succ,
              List.take_succ_cons, List.take_zero]
            simpa [pathGain] using hncond
          have hk1 : k < (n :: ext2).length := by simpa using hk
          have hcond2 := hstep2 k hk1
          simp only [List.getD_cons_succ, List.cons_append] at hcond2 ⊢
          have harr : (iso + pathGain prefs names chores
              (List.take (k + 1 + 1) (curr :: n :: ext2))) =
              (iso + miseryOf prefs names chores curr -
                prefs curr (choreOf names chores n) +
                pathGain prefs names chores (List.take (k + 1) (n :: ext2))) := by
            rw [List.take_succ_cons, List.take_succ_cons, pathGain_cons_cons, hsg]
            ring
          rw [harr]
          exact hcond2
      · rw [if_neg hll] at hbody
        simp at hbody

/-- Top-level facts about a successful `seek_loop` call: the returned loop
starts at the asker, stays within `names`, repeats nobody, and its improvement
is the exact accumulated cycle gain, at least `epsq`. -/
theorem seek_loop_found {prefs : String → String → ℚ} {names chores : List String}
    {s : String} {ll : Bool} {loop : List String} {imp : ℚ}
    (hnd : names.Nodup) (hlen : names.length = chores.length) (hs : s ∈ names)
    (h : seek_loop prefs names chores s ll = (some loop, imp)) :
    loop ≠ [] ∧ loop.headD "" = s ∧ loop.Nodup ∧ (∀ x ∈ loop, x ∈ names) ∧
    imp = cycleGain prefs names chores loop ∧ epsq ≤ imp := by
  obtain ⟨ext, hexteq, hmem, hnodup, himp, heps, _, _⟩ :=
    seekLoopF_sound prefs names chores ll hnd hlen (names.length + 1) s [] 0 loop imp
      (by simp) (by simp) hs (Or.inl rfl) h
  simp only [List.nil_append] at hexteq
  subst hexteq
  refine ⟨by simp, rfl, hnodup, hmem, ?_, heps⟩
  rw [himp]
  simp only [cycleGain]
  ring

/-- C1: for every preference table, assignment and starting person (given a
well-formed assignment: distinct people, chores index-aligned with them), if
`seek_loop` returns a cycle then the cycle has no repeated person, its
accumulated improvement is at least the epsilon `1e-10`, and every step
`u → v` of the cycle (including the closing step) satisfies
`cost(u, item_v) ≤ cost(u, item_u)`, with equality possible only when the
branch had banked a strictly positive improvement before that step (so the
first step of the branch is strictly improving). -/
theorem seek_loop_returned_cycle_ok (prefs : String → String → ℚ)
    (names chores : List String) (s : String) (ll : Bool)
    (loop : List String) (imp : ℚ)
    (hnd : names.Nodup) (hlen : names.length = chores.length) (hs : s ∈ names)
    (h : seek_loop prefs names chores s ll = (some loop, imp)) :
    loop.Nodup ∧ epsq ≤ imp ∧
    (∀ k, k < loop.length →
      prefs (loop.getD k "")
          (choreOf names chores (loop.getD ((k + 1) % loop.length) "")) ≤
        prefs (loop.getD k "") (choreOf names chores (loop.getD k "")) ∧
      (prefs (loop.getD k "")
          (choreOf names chores (loop.getD ((k + 1) % loop.length) "")) =
         prefs (loop.getD k "") (choreOf names chores (loop.getD k "")) →
       0 < pathGain prefs names chores (loop.take (k + 1)))) := by
  obtain ⟨ext, hexteq, _, hnodup, _, heps, hpg, hstep⟩ :=
    seekLoopF_sound prefs names chores ll hnd hlen (names.length + 1) s [] 0 loop imp
      (by simp) (by simp) hs (Or.inl rfl) h
  simp only [List.nil_append] at hexteq
  subst hexteq
  refine ⟨hnodup, heps, ?_⟩
  intro k hk
  have hlen0 : (s :: ext).length ≠ 0 := by simp
  have hidx : ((s :: ext) ++ [(s :: ext).headD ""]).getD (k + 1) "" =
      (s :: ext).getD ((k + 1) % (s :: ext).length) "" := by
    rcases Nat.lt_or_ge (k + 1) (s :: ext).length with hlt | hge
    · rw [Nat.mod_eq_of_lt hlt]
      rw [List.getD_eq_getElem _ _ (by simp at hlt ⊢; omega), List.getD_eq_getElem _ _ hlt]
      exact List.getElem_append_left hlt
    · have he : k + 1 = (s :: ext).length := by omega
      rw [he, Nat.mod_self]
      rw [List.getD_eq_getElem _ _ (by simp)]
      rw [List.getElem_append_right (le_refl _)]
      simp
  have hcond := hstep k hk
  rw [hidx] at hcond
  have hguard0 : (0:ℚ) ≤
      (if 0 + pathGain prefs names chores ((s :: ext).take (k + 1)) = 0
       then epsq else 0) := by
    split
    · norm_num [epsq]
    · exact le_refl 0
  constructor
  · have h2 : miseryOf prefs names chores ((s :: ext).getD k "") -
        (if 0 + pathGain prefs names chores ((s :: ext).take (k + 1)) = 0
         then epsq else 0) ≤
        miseryOf prefs names chores ((s :: ext).getD k "") := by linarith
    exact le_trans hcond h2
  · intro heq
    have hmis : miseryOf prefs names chores ((s :: ext).getD k "") =
        prefs ((s :: ext).getD k "") (choreOf names chores ((s :: ext).getD k "")) := rfl
    rw [← hmis] at heq
    rw [heq] at hcond
    have hne : ¬ (0 + pathGain prefs names chores ((s :: ext).take (k + 1)) = 0) := by
      intro h0
      rw [if_pos h0] at hcond
      have : (0:ℚ) < epsq := by norm_num [epsq]
      linarith
    have := hpg (k + 1)
    rcases lt_or_eq_of_le this with hlt | heq0
    · exact hlt
    · exact absurd (by rw [← heq0]; ring) hne

/-- The concrete 3-person preference table of the specification scenario:
`A:(IA:3, IB:1, IC:2)`, `B:(IA:2, IB:3, IC:1)`, `C:(IA:1, IB:2, IC:3)`. -/
def prefsABC : String → String → ℚ := fun n c =>
  if n = "A" then (if c = "IA" then 3 else if c = "IB" then 1 else 2)
  else if n = "B" then (if c = "IA" then 2 else if c = "IB" then 3 else 1)
  else (if c = "IA" then 1 else if c = "IB" then 2 else 3)

/-- Witness for C1 on the concrete scenario: all hypotheses hold for the
3-person table and `seek_loop` indeed returns the cycle `[A, B, C]` with
improvement `6`, which the theorem certifies to be duplicate-free and at least
`epsq` improving. -/
theorem seek_loop_returned_cycle_ok_witness :
    (["A", "B", "C"] : List String).Nodup ∧
    (["A", "B", "C"] : List String).length = (["IA", "IB", "IC"] : List String).length ∧
    "A" ∈ (["A", "B", "C"] : List String) ∧
    seek_loop prefsABC ["A", "B", "C"] ["IA", "IB", "IC"] "A" true =
      (some ["A", "B", "C"], 6) ∧
    (["A", "B", "C"] : List String).Nodup ∧ epsq ≤ (6 : ℚ) :=
  ⟨by decide, by decide, by decide, by with_unfolding_all decide,
   (seek_loop_returned_cycle_ok prefsABC ["A", "B", "C"] ["IA", "IB", "IC"] "A" true
     ["A", "B", "C"] 6 (by decide) (by decide) (by decide)
     (by with_unfolding_all decide)).1,
   (seek_loop_returned_cycle_ok prefsABC ["A", "B", "C"] ["IA", "IB", "IC"] "A" true
     ["A", "B", "C"] 6 (by decide) (by decide) (by decide)
     (by with_unfolding_all decide)).2.1⟩

/-- C2: on the concrete instance (`A:IA, B:IB, C:IC`, total cost 9),
`seek_loop` from `A` returns the loop `[A, B, C]` with improvement `6`;
applying that loop (as `improve` does) yields `A:IB, B:IC, C:IA` with every
person at cost 1 and total cost 3; and a second `improve` run changes
nothing. -/
theorem concrete_three_cycle :
    seek_loop prefsABC ["A", "B", "C"] ["IA", "IB", "IC"] "A" true =
      (some ["A", "B", "C"], 6) ∧
    totalCost prefsABC ["A", "B", "C"] ["IA", "IB", "IC"] = 9 ∧
    applyLoop ["A", "B", "C"] ["A", "B", "C"] "A" ["IA", "IB", "IC"] =
      ["IB", "IC", "IA"] ∧
    improve prefsABC ["A", "B", "C"] ["IA", "IB", "IC"] none true = ["IB", "IC", "IA"] ∧
    prefsABC "A" "IB" = 1 ∧ prefsABC "B" "IC" = 1 ∧ prefsABC "C" "IA" = 1 ∧
    totalCost prefsABC ["A", "B", "C"] ["IB", "IC", "IA"] = 3 ∧
    improve prefsABC ["A", "B", "C"] ["IB", "IC", "IA"] none true = ["IB", "IC", "IA"] := by
  with_unfolding_all decide

theorem getD_set_ne (l : List String) (i j : ℕ) (a : String) (d : String) (h : j ≠ i) :
    (l.set i a).getD j d = l.getD j d := by
  rcases Nat.lt_or_ge j l.length with hj | hj
  · rw [List.getD_eq_getElem _ _ (by simpa using hj), List.getD_eq_getElem _ _ hj]
    exact List.getElem_set_ne (fun he => h he.symm) _
  · rw [List.getD_eq_default _ _ (by simpa using hj), List.getD_eq_default _ _ hj]

theorem getD_set_self (l : List String) (i : ℕ) (a : String) (d : String)
    (h : i < l.length) : (l.set i a).getD i d = a := by
  rw [List.getD_eq_getElem _ _ (by simpa using h)]
  exact List.getElem_set_self _

theorem indexOf_lt (names : List String) (u : String) (h : u ∈ names) :
    names.indexOf u < names.length := List.indexOf_lt_length.mpr h

theorem getD_indexOf (names : List String) (u : String) (h : u ∈ names) :
    names.getD (names.indexOf u) "" = u := by
  rw [List.getD_eq_getElem _ _ (indexOf_lt names u h)]
  exact List.getElem_indexOf _

theorem indexOf_inj (names : List String) (hnd : names.Nodup) (u v : String)
    (hu : u ∈ names) (hv : v ∈ names)
    (h : names.indexOf u = names.indexOf v) : u = v := by
  have h1 := getD_indexOf names u hu
  have h2 := getD_indexOf names v hv
  rw [← h1, ← h2, h]

theorem totalCost_set (prefs : String → String → ℚ) :
    ∀ (names cs : List String) (j : ℕ) (x : String),
      j < names.length → names.length = cs.length →
      totalCost prefs names (cs.set j x) =
        totalCost prefs names cs - prefs (names.getD j "") (cs.getD j "") +
          prefs (names.getD j "") x := by
  intro names
  induction names with
  | nil => intro cs j x hj _; simp at hj
  | cons nm names ih =>
    intro cs j x hj hlen
    rcases cs with _ | ⟨c, cs⟩
    · simp at hlen
    rcases j with _ | j
    · simp only [List.set_cons_zero, List.getD_cons_zero]
      simp only [totalCost, List.zip_cons_cons, List.map_cons, List.sum_cons]
      ring
    · simp only [List.set_cons_succ, List.getD_cons_succ]
      simp only [totalCost, List.zip_cons_cons, List.map_cons, List.sum_cons]
      have := ih cs j x (by simpa using hj) (by simpa using hlen)
      simp only [totalCost] at this
      rw [this]
      ring

theorem choreOf_congr (names : List String) (cs1 cs : List String) (u v : String)
    (hu : choreOf names cs1 u = choreOf names cs u)
    (hv : choreOf names cs1 v = choreOf names cs v) (prefs : String → String → ℚ) :
    stepGain prefs names cs1 u v = stepGain prefs names cs u v := by
  simp only [stepGain, miseryOf, hu, hv]

theorem pathGain_congr (prefs : String → String → ℚ) (names : List String)
    (cs1 cs : List String) :
    ∀ (l : List String), (∀ u ∈ l, choreOf names cs1 u = choreOf names cs u) →
      pathGain prefs names cs1 l = pathGain prefs names cs l := by
  intro l
  induction l with
  | nil => intro _; rfl
  | cons a l ih =>
    intro hcong
    rcases l with _ | ⟨b, t⟩
    · rfl
    · rw [pathGain_cons_cons, pathGain_cons_cons]
      rw [choreOf_congr names cs1 cs a b (hcong a (by simp)) (hcong b (by simp)) prefs]
      rw [ih (fun u hu => hcong u (List.mem_cons_of_mem a hu))]

theorem getLastD_eq_getLast (l : List String) (h : l ≠ []) :
    l.getLastD "" = l.getLast h := by
  rw [List.getLastD_eq_getLast?, List.getLast?_eq_getLast l h]
  rfl

theorem getLastD_mem (l : List String) (h : l ≠ []) : l.getLastD "" ∈ l := by
  rw [getLastD_eq_getLast l h]
  exact List.getLast_mem h

theorem chainFold (prefs : String → String → ℚ) (names : List String) (hnd : names.Nodup) :
    ∀ (l cs : List String), l.Nodup → (∀ u ∈ l, u ∈ names) →
      names.length = cs.length →
      ((l.zip l.tail).foldl
        (fun c p => c.set (names.indexOf p.1) (c.getD (names.indexOf p.2) "")) cs).length =
          cs.length ∧
      (∀ j : ℕ, (∀ u ∈ l.dropLast, j ≠ names.indexOf u) →
        ((l.zip l.tail).foldl
          (fun c p => c.set (names.indexOf p.1) (c.getD (names.indexOf p.2) "")) cs).getD j ""
          = cs.getD j "") ∧
      (∀ x ∈ (l.zip l.tail).foldl
          (fun c p => c.set (names.indexOf p.1) (c.getD (names.indexOf p.2) "")) cs,
        x ∈ cs) ∧
      totalCost prefs names ((l.zip l.tail).foldl
          (fun c p => c.set (names.indexOf p.1) (c.getD (names.indexOf p.2) "")) cs) =
        totalCost prefs names cs - pathGain prefs names cs l := by
  intro l
  induction l with
  | nil =>
    intro cs _ _ _
    refine ⟨rfl, fun j _ => rfl, fun x hx => hx, ?_⟩
    simp [pathGain]
  | cons a l ih =>
    intro cs hnodup hmem hlen
    rcases l with _ | ⟨b, t⟩
    · refine ⟨rfl, fun j _ => rfl, fun x hx => hx, ?_⟩
      simp [pathGain]
    · have ha : a ∈ names := hmem a (by simp)
      have hb : b ∈ names := hmem b (by simp)
      have hanotin : a ∉ b :: t := by
        intro hmem1
        exact (List.nodup_cons.mp hnodup).1 hmem1
      have hndbt : (b :: t).Nodup := (List.nodup_cons.mp hnodup).2
      have hmembt : ∀ u ∈ b :: t, u ∈ names := fun u hu => hmem u (List.mem_cons_of_mem a hu)
      have hposb : names.indexOf b < cs.length := hlen ▸ indexOf_lt names b hb
      have hposa : names.indexOf a < cs.length := hlen ▸ indexOf_lt names a ha
      have hstep : (((a :: b :: t).zip (a :: b :: t).tail).foldl
          (fun c p => c.set (names.indexOf p.1) (c.getD (names.indexOf p.2) "")) cs) =
          (((b :: t).zip (b :: t).tail).foldl
            (fun c p => c.set (names.indexOf p.1) (c.getD (names.indexOf p.2) ""))
            (cs.set (names.indexOf a) (cs.getD (names.indexOf b) ""))) := rfl
      have hlen1 : names.length = (cs.set (names.indexOf a) (cs.getD (names.indexOf b) "")).length := by
        rw [List.length_set]; exact hlen
      obtain ⟨ihlen, ihagree, ihmem, ihcost⟩ :=
        ih (cs.set (names.indexOf a) (cs.getD (names.indexOf b) "")) hndbt hmembt hlen1
      have hagree_cs1 : ∀ u ∈ b :: t,
          choreOf names (cs.set (names.indexOf a) (cs.getD (names.indexOf b) "")) u =
            choreOf names cs u := by
        intro u hu
        have hune : u ≠ a := fun he => hanotin (he ▸ hu)
        have hposne : names.indexOf u ≠ names.indexOf a := by
          intro he
          exact hune (indexOf_inj names hnd u a (hmembt u hu) ha he)
        simp only [choreOf]
        exact getD_set_ne cs (names.indexOf a) (names.indexOf u) _ "" hposne
      have hpg : pathGain prefs names
          (cs.set (names.indexOf a) (cs.getD (names.indexOf b) "")) (b :: t) =
          pathGain prefs names cs (b :: t) :=
        pathGain_congr prefs names _ cs (b :: t) hagree_cs1
      have hcost1 : totalCost prefs names
          (cs.set (names.indexOf a) (cs.getD (names.indexOf b) "")) =
          totalCost prefs names cs - stepGain prefs names cs a b := by
        rw [totalCost_set prefs names cs (names.indexOf a) _ (indexOf_lt names a ha) hlen]
        rw [getD_indexOf names a ha]
        simp only [stepGain, miseryOf, choreOf]
        ring
      refine ⟨?_, ?_, ?_, ?_⟩
      · rw [hstep, ihlen, List.length_set]
      · intro j hj
        have hja : j ≠ names.indexOf a := by
          apply hj
          rw [List.dropLast_cons₂]
          exact List.mem_cons_self a _
        have hjbt : ∀ u ∈ (b :: t).dropLast, j ≠ names.indexOf u := by
          intro u hu
          apply hj
          rw [List.dropLast_cons₂]
          exact List.mem_cons_of_mem a hu
        rw [hstep, ihagree j hjbt]
        exact getD_set_ne cs (names.indexOf a) j _ "" hja
      · intro x hx
        rw [hstep] at hx
        rcases List.mem_or_eq_of_mem_set (ihmem x hx) with hx1 | hx1
        · exact hx1
        · rw [hx1, List.getD_eq_getElem _ _ hposb]
          exact List.getElem_mem hposb
      · rw [hstep, ihcost, hpg, hcost1, pathGain_cons_cons]
        ring

theorem headD_mem (l : List String) (h : l ≠ []) : l.headD "" ∈ l := by
  rcases l with _ | ⟨a, t⟩
  · exact absurd rfl h
  · simp

theorem getLastD_not_mem_dropLast (l : List String) (hnodup : l.Nodup) (h : l ≠ []) :
    l.getLastD "" ∉ l.dropLast := by
  intro hmem
  have hsplit := List.dropLast_append_getLast h
  rw [← hsplit] at hnodup
  rw [List.nodup_append] at hnodup
  exact hnodup.2.2 (by rwa [getLastD_eq_getLast l h] at hmem) (by simp)

/-- Applying a loop found by `seek_loop` on assignment `cs` lowers the total
cost by exactly the loop's cycle gain, preserves the assignment length, and
only permutes chores already present. -/
theorem applyLoop_spec (prefs : String → String → ℚ) (names : List String)
    (hnd : names.Nodup) (loop : List String) (asker : String) (cs : List String)
    (hnodup : loop.Nodup) (hmem : ∀ u ∈ loop, u ∈ names) (hne : loop ≠ [])
    (hhead : loop.headD "" = asker) (hlen : names.length = cs.length) :
    totalCost prefs names (applyLoop names loop asker cs) =
      totalCost prefs names cs - cycleGain prefs names cs loop ∧
    (applyLoop names loop asker cs).length = cs.length ∧
    (∀ x ∈ applyLoop names loop asker cs, x ∈ cs) := by
  obtain ⟨clen, cagree, cmem, ccost⟩ := chainFold prefs names hnd loop cs hnodup hmem hlen
  have hlast_mem : loop.getLastD "" ∈ names := hmem _ (getLastD_mem loop hne)
  have hasker_mem : asker ∈ names := hmem _ (hhead ▸ headD_mem loop hne)
  have hlast_lt : names.indexOf (loop.getLastD "") < names.length :=
    indexOf_lt names _ hlast_mem
  have hasker_lt : names.indexOf asker < cs.length := hlen ▸ indexOf_lt names asker hasker_mem
  have hagree_last : ((loop.zip loop.tail).foldl
      (fun c p => c.set (names.indexOf p.1) (c.getD (names.indexOf p.2) "")) cs).getD
        (names.indexOf (loop.getLastD "")) "" = cs.getD (names.indexOf (loop.getLastD "")) "" := by
    apply cagree
    intro u hu
    intro he
    have : loop.getLastD "" = u :=
      indexOf_inj names hnd _ u hlast_mem (hmem u (List.dropLast_sublist loop |>.mem hu)) he
    exact getLastD_not_mem_dropLast loop hnodup hne (this ▸ hu)
  have hlen_r : names.length = ((loop.zip loop.tail).foldl
      (fun c p => c.set (names.indexOf p.1) (c.getD (names.indexOf p.2) "")) cs).length := by
    rw [clen]; exact hlen
  refine ⟨?_, ?_, ?_⟩
  · show totalCost prefs names (((loop.zip loop.tail).foldl _ cs).set _ _) = _
    rw [totalCost_set prefs names _ (names.indexOf (loop.getLastD "")) _ hlast_lt hlen_r]
    rw [getD_indexOf names _ hlast_mem, hagree_last, ccost]
    rcases loop with _ | ⟨l0, lt⟩
    · exact absurd rfl hne
    · have hl0 : asker = l0 := by rw [← hhead]; rfl
      simp only [cycleGain, stepGain, miseryOf, choreOf, hl0, List.headD_cons]
      ring
  · show (((loop.zip loop.tail).foldl _ cs).set _ _).length = _
    rw [List.length_set, clen]
  · intro x hx
    rcases List.mem_or_eq_of_mem_set hx with hx1 | hx1
    · exact cmem x hx1
    · rw [hx1, List.getD_eq_getElem _ _ hasker_lt]
      exact List.getElem_mem hasker_lt

/-- Per-asker dichotomy inside a pass of `improve`: a failed search leaves the
state untouched; a returned loop is always applied, always has strictly
positive improvement, and lowers the total cost by exactly that improvement. -/
theorem askStep_spec (prefs : String → String → ℚ) (names : List String) (ll : Bool)
    (hnd : names.Nodup) (c : List String) (bfl : Bool) (h : List ℚ) (n : String)
    (hn : n ∈ names) (hlen : names.length = c.length) :
    ((seek_loop prefs names c n ll).1 = none →
      askStep prefs names ll (c, bfl, h) n = (c, bfl, h)) ∧
    (∀ loop imp, seek_loop prefs names c n ll = (some loop, imp) →
      askStep prefs names ll (c, bfl, h) n =
        (applyLoop names loop n c, true,
          h ++ [misery prefs names (applyLoop names loop n c)]) ∧
      0 < imp ∧ epsq ≤ imp ∧
      totalCost prefs names (applyLoop names loop n c) =
        totalCost prefs names c - imp ∧
      (applyLoop names loop n c).length = c.length ∧
      (∀ x ∈ applyLoop names loop n c, x ∈ c)) := by
  constructor
  · intro hnone
    rcases hs : seek_loop prefs names c n ll with ⟨o, i⟩
    rw [hs] at hnone
    simp only at hnone
    subst hnone
    simp [askStep, hs]
  · intro loop imp hs
    obtain ⟨hne, hhead, hnodup, hmem, himp, heps⟩ := seek_loop_found hnd hlen hn hs
    obtain ⟨hcost, hlen1, hsub⟩ :=
      applyLoop_spec prefs names hnd loop n c hnodup hmem hne hhead hlen
    have heps_pos : (0:ℚ) < epsq := by norm_num [epsq]
    refine ⟨by simp [askStep, hs], by linarith, heps, ?_, hlen1, hsub⟩
    rw [hcost, himp]

/-- The state invariant maintained by `improve` across asker steps and passes:
well-formed length, chores drawn from the starting pool, and a strictly
decreasing misery history whose last entry is the current misery. -/
def ImpInv (prefs : String → String → ℚ) (names chores0 : List String)
    (st : List String × Bool × List ℚ) : Prop :=
  names.length = st.1.length ∧ (∀ x ∈ st.1, x ∈ chores0) ∧
  st.2.2 ≠ [] ∧ st.2.2.getLastD 0 = misery prefs names st.1 ∧
  List.Chain' (fun a b => b < a) st.2.2

theorem improveFold_spec (prefs : String → String → ℚ) (names chores0 : List String)
    (ll : Bool) (hnd : names.Nodup) :
    ∀ (order : List String) (st : List String × Bool × List ℚ),
      (∀ n ∈ order, n ∈ names) → ImpInv prefs names chores0 st →
      ImpInv prefs names chores0 (order.foldl (askStep prefs names ll) st) ∧
      totalCost prefs names (order.foldl (askStep prefs names ll) st).1 ≤
        totalCost prefs names st.1 ∧
      ((order.foldl (askStep prefs names ll) st).2.1 = st.2.1 ∨
        totalCost prefs names (order.foldl (askStep prefs names ll) st).1 ≤
          totalCost prefs names st.1 - epsq) := by
  intro order
  induction order with
  | nil => intro st _ hinv; exact ⟨hinv, le_refl _, Or.inl rfl⟩
  | cons n order ih =>
    intro st hord hinv
    obtain ⟨hlen, hsub, hhne, hhlast, hchain⟩ := hinv
    have hn : n ∈ names := hord n (by simp)
    have hord1 : ∀ m ∈ order, m ∈ names := fun m hm => hord m (List.mem_cons_of_mem n hm)
    rcases st with ⟨c, bfl, h⟩
    rcases hs : seek_loop prefs names c n ll with ⟨o, i⟩
    rcases o with _ | loop
    · have hstep := (askStep_spec prefs names ll hnd c bfl h n hn hlen).1 (by rw [hs])
      simp only [List.foldl_cons, hstep]
      exact ih (c, bfl, h) hord1 ⟨hlen, hsub, hhne, hhlast, hchain⟩
    · obtain ⟨hstep, hpos, heps, hcost, hlen1, hsub1⟩ :=
        (askStep_spec prefs names ll hnd c bfl h n hn hlen).2 loop i hs
      have hnames_ne : names ≠ [] := by
        intro he; rw [he] at hn; simp at hn
      have hclen_pos : (0:ℚ) < ((applyLoop names loop n c).length : ℚ) := by
        have : 0 < names.length := List.length_pos.mpr hnames_ne
        rw [hlen1, ← hlen]
        exact_mod_cast this
      have hmis_lt : misery prefs names (applyLoop names loop n c) < misery prefs names c := by
        have h2 : totalCost prefs names (applyLoop names loop n c) <
            totalCost prefs names c := by
          have h3 : (0:ℚ) < epsq := by norm_num [epsq]
          linarith
        simp only [misery, hlen1]
        rw [hlen1] at hclen_pos
        exact (div_lt_div_iff_of_pos_right hclen_pos).mpr h2
      have hinv1 : ImpInv prefs names chores0
          (applyLoop names loop n c, true,
            h ++ [misery prefs names (applyLoop names loop n c)]) := by
        refine ⟨by rw [hlen1]; exact hlen, fun x hx => hsub x (hsub1 x hx), by simp, ?_, ?_⟩
        · simp
        · rw [List.chain'_append]
          refine ⟨hchain, List.chain'_singleton _, ?_⟩
          intro x hx y hy
          simp only [List.head?_cons, Option.mem_def, Option.some_inj] at hy
          subst hy
          have hxl : x = h.getLastD 0 := by
            rcases h with _ | ⟨h0, ht⟩
            · exact absurd rfl hhne
            · rw [List.getLastD_eq_getLast?]
              rw [List.getLast?_eq_getLast _ (by simp)] at hx ⊢
              simpa using hx.symm
          rw [hxl, hhlast]
          exact hmis_lt
      simp only [List.foldl_cons, hstep]
      obtain ⟨ih1, ih2, ih3⟩ := ih _ hord1 hinv1
      refine ⟨ih1, ?_, Or.inr ?_⟩
      · simp only at ih2
        linarith
      · simp only at ih2
        linarith

theorem askStep_flag_true (prefs : String → String → ℚ) (names : List String) (ll : Bool)
    (st : List String × Bool × List ℚ) (n : String) (h : st.2.1 = true) :
    (askStep prefs names ll st n).2.1 = true := by
  unfold askStep
  rcases hs : seek_loop prefs names st.1 n ll with ⟨o, i⟩
  rcases o with _ | loop <;> simp [h]

theorem foldl_flag_true (prefs : String → String → ℚ) (names : List String) (ll : Bool) :
    ∀ (order : List String) (st : List String × Bool × List ℚ), st.2.1 = true →
      ((order.foldl (askStep prefs names ll) st).2.1 = true) := by
  intro order
  induction order with
  | nil => intro st h; exact h
  | cons n order ih =>
    intro st h
    exact ih _ (askStep_flag_true prefs names ll st n h)

theorem improvePass_false (prefs : String → String → ℚ) (names : List String) (ll : Bool) :
    ∀ (order : List String) (c : List String) (h : List ℚ),
      (order.foldl (askStep prefs names ll) (c, false, h)).2.1 = false →
      order.foldl (askStep prefs names ll) (c, false, h) = (c, false, h) ∧
      ∀ n ∈ order, (seek_loop prefs names c n ll).1 = none := by
  intro order
  induction order with
  | nil => intro c h _; exact ⟨rfl, by simp⟩
  | cons n order ih =>
    intro c h hflag
    rcases hs : seek_loop prefs names c n ll with ⟨o, i⟩
    rcases o with _ | loop
    · have hstep : askStep prefs names ll (c, false, h) n = (c, false, h) := by
        simp [askStep, hs]
      rw [List.foldl_cons, hstep] at hflag ⊢
      obtain ⟨ih1, ih2⟩ := ih c h hflag
      refine ⟨ih1, ?_⟩
      intro m hm
      rcases List.mem_cons.mp hm with he | hm
      · rw [he, hs]
      · exact ih2 m hm
    · exfalso
      have hstep : (askStep prefs names ll (c, false, h) n).2.1 = true := by
        simp [askStep, hs]
      rw [List.foldl_cons] at hflag
      have := foldl_flag_true prefs names ll order _ hstep
      rw [hflag] at this
      exact Bool.false_ne_true this

theorem improvePass_all_none (prefs : String → String → ℚ) (names : List String) (ll : Bool) :
    ∀ (order : List String) (c : List String) (bfl : Bool) (h : List ℚ),
      (∀ n ∈ order, (seek_loop prefs names c n ll).1 = none) →
      order.foldl (askStep prefs names ll) (c, bfl, h) = (c, bfl, h) := by
  intro order
  induction order with
  | nil => intro c bfl h _; rfl
  | cons n order ih =>
    intro c bfl h hnone
    have hn := hnone n (by simp)
    rcases hs : seek_loop prefs names c n ll with ⟨o, i⟩
    rw [hs] at hn
    simp only at hn
    subst hn
    have hstep : askStep prefs names ll (c, bfl, h) n = (c, bfl, h) := by
      simp [askStep, hs]
    rw [List.foldl_cons, hstep]
    exact ih c bfl h (fun m hm => hnone m (List.mem_cons_of_mem n hm))

theorem foldl_hist_indep (prefs : String → String → ℚ) (names : List String) (ll : Bool) :
    ∀ (order : List String) (c : List String) (bfl : Bool) (h h1 : List ℚ),
      (order.foldl (askStep prefs names ll) (c, bfl, h)).1 =
        (order.foldl (askStep prefs names ll) (c, bfl, h1)).1 ∧
      (order.foldl (askStep prefs names ll) (c, bfl, h)).2.1 =
        (order.foldl (askStep prefs names ll) (c, bfl, h1)).2.1 := by
  intro order
  induction order with
  | nil => intro c bfl h h1; exact ⟨rfl, rfl⟩
  | cons n order ih =>
    intro c bfl h h1
    rcases hs : seek_loop prefs names c n ll with ⟨o, i⟩
    rcases o with _ | loop
    · have h2 : askStep prefs names ll (c, bfl, h) n = (c, bfl, h) := by
        simp [askStep, hs]
      have h3 : askStep prefs names ll (c, bfl, h1) n = (c, bfl, h1) := by
        simp [askStep, hs]
      rw [List.foldl_cons, List.foldl_cons, h2, h3]
      exact ih c bfl h h1
    · have h2 : askStep prefs names ll (c, bfl, h) n =
          (applyLoop names loop n c, true,
            h ++ [misery prefs names (applyLoop names loop n c)]) := by
        simp [askStep, hs]
      have h3 : askStep prefs names ll (c, bfl, h1) n =
          (applyLoop names loop n c, true,
            h1 ++ [misery prefs names (applyLoop names loop n c)]) := by
        simp [askStep, hs]
      rw [List.foldl_cons, List.foldl_cons, h2, h3]
      exact ih _ true _ _

theorem improveLoop_succ_false (prefs : String → String → ℚ) (names : List String)
    (ll : Bool) (order : List String) (fuel : ℕ) (c : List String) (h : List ℚ)
    (hf : (improvePass prefs names ll order c h).2.1 = false) :
    improveLoop prefs names ll order (fuel + 1) c h = (c, h) := by
  rw [improveLoop]
  simp only [hf]
  rfl

theorem improveLoop_succ_true (prefs : String → String → ℚ) (names : List String)
    (ll : Bool) (order : List String) (fuel : ℕ) (c : List String) (h : List ℚ)
    (hf : (improvePass prefs names ll order c h).2.1 = true) :
    improveLoop prefs names ll order (fuel + 1) c h =
      improveLoop prefs names ll order fuel
        (improvePass prefs names ll order c h).1
        (improvePass prefs names ll order c h).2.2 := by
  rw [improveLoop]
  simp only [hf]
  rfl

theorem foldl_min_le_init : ∀ (l : List ℚ) (a : ℚ), l.foldl min a ≤ a := by
  intro l
  induction l with
  | nil => intro a; exact le_refl a
  | cons b l ih =>
    intro a
    exact le_trans (ih (min a b)) (min_le_left a b)

theorem foldl_min_le_mem : ∀ (l : List ℚ) (a x : ℚ), x ∈ l → l.foldl min a ≤ x := by
  intro l
  induction l with
  | nil => intro a x hx; simp at hx
  | cons b l ih =>
    intro a x hx
    rcases List.mem_cons.mp hx with he | hx
    · rw [he]
      exact le_trans (foldl_min_le_init l (min a b)) (min_le_right a b)
    · exact ih (min a b) x hx

theorem minCostOf_le (prefs : String → String → ℚ) (n : String) (chores0 : List String)
    (x : String) (hx : x ∈ chores0) : minCostOf prefs n chores0 ≤ prefs n x := by
  rcases chores0 with _ | ⟨c0, rest⟩
  · simp at hx
  · simp only [minCostOf]
    rcases List.mem_cons.mp hx with he | hx
    · rw [he]
      exact foldl_min_le_init _ _
    · exact foldl_min_le_mem _ _ _ (List.mem_map_of_mem (prefs n) hx)

theorem lowerBound_le (prefs : String → String → ℚ) (chores0 : List String) :
    ∀ (names c : List String), names.length = c.length → (∀ x ∈ c, x ∈ chores0) →
      lowerBound prefs names chores0 ≤ totalCost prefs names c := by
  intro names
  induction names with
  | nil => intro c _ _; simp [lowerBound, totalCost]
  | cons nm names ih =>
    intro c hlen hsub
    rcases c with _ | ⟨c0, cs⟩
    · simp at hlen
    simp only [lowerBound, totalCost, List.map_cons, List.sum_cons, List.zip_cons_cons]
    have h1 : minCostOf prefs nm chores0 ≤ prefs nm c0 :=
      minCostOf_le prefs nm chores0 c0 (hsub c0 (by simp))
    have h2 := ih cs (by simpa using hlen) (fun x hx => hsub x (List.mem_cons_of_mem c0 hx))
    simp only [lowerBound, totalCost] at h2
    exact add_le_add h1 h2

theorem lt_natBound (q : ℚ) : q < (natBound q : ℚ) := by
  rcases le_or_lt 0 q with hq | hq
  · have hnum : (q.num : ℚ) ≤ ((q.num.toNat : ℤ) : ℚ) := by
      exact_mod_cast Int.self_le_toNat q.num
    have hden : (1:ℚ) ≤ (q.den : ℚ) := by
      exact_mod_cast Nat.one_le_iff_ne_zero.mpr q.den_nz
    have hq_le : q ≤ (q.num : ℚ) := by
      conv_lhs => rw [← Rat.num_div_den q]
      apply div_le_self ?_ hden
      exact_mod_cast Rat.num_nonneg.mpr hq
    have : q ≤ ((q.num.toNat : ℤ) : ℚ) := le_trans hq_le hnum
    simp only [natBound]
    push_cast at this ⊢
    linarith
  · have : (0:ℚ) ≤ (natBound q : ℚ) := by positivity
    linarith

theorem fuelFor_lt (prefs : String → String → ℚ) (names chores : List String) :
    totalCost prefs names chores <
      lowerBound prefs names chores + (fuelFor prefs names chores : ℚ) * epsq := by
  have heps : (0:ℚ) < epsq := by norm_num [epsq]
  have h1 := lt_natBound ((totalCost prefs names chores - lowerBound prefs names chores) / epsq)
  have h2 : totalCost prefs names chores - lowerBound prefs names chores <
      (natBound ((totalCost prefs names chores - lowerBound prefs names chores) / epsq) : ℚ)
        * epsq := by
    have := (div_lt_iff heps).mp h1
    linarith
  have h3 : (natBound ((totalCost prefs names chores - lowerBound prefs names chores) / epsq)
      : ℚ) ≤ (fuelFor prefs names chores : ℚ) := by
    simp only [fuelFor]
    push_cast
    linarith
  nlinarith [heps]

theorem improveLoop_term (prefs : String → String → ℚ) (names chores0 : List String)
    (ll : Bool) (order : List String) (hnd : names.Nodup)
    (hord : ∀ n ∈ order, n ∈ names) :
    ∀ (k fuel : ℕ) (c : List String) (h : List ℚ),
      k ≤ fuel →
      ImpInv prefs names chores0 (c, false, h) →
      totalCost prefs names c < lowerBound prefs names chores0 + (k : ℚ) * epsq →
      (∀ h1 : List ℚ,
        (improvePass prefs names ll order
          (improveLoop prefs names ll order fuel c h).1 h1).2.1 = false) ∧
      (∀ g : ℕ, improveLoop prefs names ll order (fuel + g) c h =
        improveLoop prefs names ll order fuel c h) ∧
      ImpInv prefs names chores0
        ((improveLoop prefs names ll order fuel c h).1, false,
          (improveLoop prefs names ll order fuel c h).2) := by
  intro k
  induction k with
  | zero =>
    intro fuel c h _ hinv hlt
    exfalso
    obtain ⟨hlen, hsub, _, _, _⟩ := hinv
    have := lowerBound_le prefs chores0 names c hlen hsub
    simp only [Nat.cast_zero, zero_mul, add_zero] at hlt
    linarith
  | succ k ih =>
    intro fuel c h hk hinv hlt
    rcases fuel with _ | fuel
    · omega
    obtain ⟨hinv1, hle1, hdisj⟩ :=
      improveFold_spec prefs names chores0 ll hnd order (c, false, h) hord hinv
    rcases hflag : (improvePass prefs names ll order c h).2.1 with _ | _
    · -- no trade in this pass: fixpoint reached
      have hstop := improveLoop_succ_false prefs names ll order fuel c h hflag
      rw [hstop]
      refine ⟨?_, ?_, ?_⟩
      · intro h1
        have := (foldl_hist_indep prefs names ll order c false h1 h).2
        simp only [improvePass]
        rw [this]
        exact hflag
      · intro g
        rw [show fuel + 1 + g = (fuel + g) + 1 from by omega]
        rw [improveLoop_succ_false prefs names ll order (fuel + g) c h hflag]
      · exact hinv
    · -- a trade happened: cost dropped by at least epsq, recurse
      have htc : totalCost prefs names (improvePass prefs names ll order c h).1 ≤
          totalCost prefs names c - epsq := by
        rcases hdisj with habs | hok
        · have hflag1 : (order.foldl (askStep prefs names ll) (c, false, h)).2.1 = true := hflag
          rw [hflag1] at habs
          exact absurd habs (by simp)
        · exact hok
      have hinv1a : ImpInv prefs names chores0
          ((improvePass prefs names ll order c h).1, false,
            (improvePass prefs names ll order c h).2.2) := by
        obtain ⟨a1, a2, a3, a4, a5⟩ := hinv1
        exact ⟨a1, a2, a3, a4, a5⟩
      have hlt1 : totalCost prefs names (improvePass prefs names ll order c h).1 <
          lowerBound prefs names chores0 + (k : ℚ) * epsq := by
        push_cast at hlt ⊢
        linarith
      have hstep := improveLoop_succ_true prefs names ll order fuel c h hflag
      obtain ⟨ihA, ihB, ihC⟩ := ih fuel (improvePass prefs names ll order c h).1
        (improvePass prefs names ll order c h).2.2 (by omega) hinv1a hlt1
      rw [hstep]
      refine ⟨ihA, ?_, ihC⟩
      intro g
      rw [show fuel + 1 + g = (fuel + g) + 1 from by omega]
      rw [improveLoop_succ_true prefs names ll order (fuel + g) c h hflag]
      rw [ihB g]

theorem order_mem (prefs : String → String → ℚ) (names chores askers : List String)
    (n : String) : n ∈ askingOrder prefs names chores askers ↔ n ∈ askers :=
  (List.mergeSort_perm askers _).mem_iff

theorem improve_fix (prefs : String → String → ℚ) (names chores : List String)
    (r : Option (List String)) (ll : Bool) (hnd : names.Nodup)
    (hlen : names.length = chores.length)
    (hask : ∀ n ∈ resolveAskers r names, n ∈ names) :
    (∀ h1 : List ℚ, (improvePass prefs names ll
        (askingOrder prefs names chores (resolveAskers r names))
        (improve prefs names chores r ll) h1).2.1 = false) ∧
    (∀ g : ℕ, improveLoop prefs names ll
        (askingOrder prefs names chores (resolveAskers r names))
        (fuelFor prefs names chores + g) chores [misery prefs names chores] =
      improveLoop prefs names ll
        (askingOrder prefs names chores (resolveAskers r names))
        (fuelFor prefs names chores) chores [misery prefs names chores]) ∧
    ImpInv prefs names chores
      ((improveFull prefs names chores r ll).1, false,
        (improveFull prefs names chores r ll).2) := by
  have hord : ∀ n ∈ askingOrder prefs names chores (resolveAskers r names), n ∈ names :=
    fun n hn => hask n ((order_mem prefs names chores _ n).mp hn)
  have hinv : ImpInv prefs names chores (chores, false, [misery prefs names chores]) := by
    refine ⟨hlen, fun x hx => hx, by simp, by simp, List.chain'_singleton _⟩
  obtain ⟨hA, hB, hC⟩ := improveLoop_term prefs names chores ll
    (askingOrder prefs names chores (resolveAskers r names)) hnd hord
    (fuelFor prefs names chores) (fuelFor prefs names chores) chores
    [misery prefs names chores] (le_refl _) hinv (fuelFor_lt prefs names chores)
  exact ⟨hA, hB, hC⟩

/-- C4: `improve` terminates: with the fuel supplied by the wrapper the
while-loop reaches a pass that applies no trade (first conjunct), and adding
any extra fuel does not change the run (second conjunct) — the passes
stabilize because every applied exchange lowers total cost by at least
`epsq` and the cost is bounded below. -/
theorem improve_terminates (prefs : String → String → ℚ) (names chores : List String)
    (r : Option (List String)) (ll : Bool) (hnd : names.Nodup)
    (hlen : names.length = chores.length)
    (hask : ∀ n ∈ resolveAskers r names, n ∈ names) :
    (∀ h1 : List ℚ, (improvePass prefs names ll
        (askingOrder prefs names chores (resolveAskers r names))
        (improve prefs names chores r ll) h1).2.1 = false) ∧
    (∀ g : ℕ, improveLoop prefs names ll
        (askingOrder prefs names chores (resolveAskers r names))
        (fuelFor prefs names chores + g) chores [misery prefs names chores] =
      improveLoop prefs names ll
        (askingOrder prefs names chores (resolveAskers r names))
        (fuelFor prefs names chores) chores [misery prefs names chores]) :=
  ⟨(improve_fix prefs names chores r ll hnd hlen hask).1,
   (improve_fix prefs names chores r ll hnd hlen hask).2.1⟩

/-- C3: within one `improve` call the recorded misery history strictly
decreases (total cost is non-increasing across the working assignments and
strictly decreases at every applied exchange), and each asker step either
leaves the state untouched (search failed) or applies the returned loop —
never dropping it — whose improvement is strictly positive and is subtracted
exactly from the total cost. -/
theorem improve_cost_monotone (prefs : String → String → ℚ) (names chores : List String)
    (r : Option (List String)) (ll : Bool) (hnd : names.Nodup)
    (hlen : names.length = chores.length)
    (hask : ∀ n ∈ resolveAskers r names, n ∈ names) :
    List.Chain' (fun a b => b < a) (improveFull prefs names chores r ll).2 ∧
    (∀ (c : List String) (bfl : Bool) (h : List ℚ) (n : String),
      n ∈ names → names.length = c.length →
      ((seek_loop prefs names c n ll).1 = none →
        askStep prefs names ll (c, bfl, h) n = (c, bfl, h)) ∧
      (∀ loop imp, seek_loop prefs names c n ll = (some loop, imp) →
        askStep prefs names ll (c, bfl, h) n =
          (applyLoop names loop n c, true,
            h ++ [misery prefs names (applyLoop names loop n c)]) ∧
        0 < imp ∧
        totalCost prefs names (applyLoop names loop n c) =
          totalCost prefs names c - imp)) := by
  constructor
  · exact (improve_fix prefs names chores r ll hnd hlen hask).2.2.2.2.2.2
  · intro c bfl h n hn hclen
    obtain ⟨h1, h2⟩ := askStep_spec prefs names ll hnd c bfl h n hn hclen
    refine ⟨h1, ?_⟩
    intro loop imp hs
    obtain ⟨ha, hb, _, hc, _, _⟩ := h2 loop imp hs
    exact ⟨ha, hb, hc⟩

/-- C5: `improve` is an idempotent fixpoint operator: running it again on its
own output (same asker restriction and largeloop mode) changes nothing. -/
theorem improve_idempotent (prefs : String → String → ℚ) (names chores : List String)
    (r : Option (List String)) (ll : Bool) (hnd : names.Nodup)
    (hlen : names.length = chores.length)
    (hask : ∀ n ∈ resolveAskers r names, n ∈ names) :
    improve prefs names (improve prefs names chores r ll) r ll =
      improve prefs names chores r ll := by
  have hfix := (improve_fix prefs names chores r ll hnd hlen hask).1 []
  have hnone : ∀ n ∈ askingOrder prefs names chores (resolveAskers r names),
      (seek_loop prefs names (improve prefs names chores r ll) n ll).1 = none :=
    (improvePass_false prefs names ll _ (improve prefs names chores r ll) [] hfix).2
  have hnone2 : ∀ n ∈ askingOrder prefs names (improve prefs names chores r ll)
      (resolveAskers r names),
      (seek_loop prefs names (improve prefs names chores r ll) n ll).1 = none := by
    intro n hn
    exact hnone n ((order_mem prefs names chores _ n).mpr
      ((order_mem prefs names (improve prefs names chores r ll) _ n).mp hn))
  have hpass : (improvePass prefs names ll
      (askingOrder prefs names (improve prefs names chores r ll) (resolveAskers r names))
      (improve prefs names chores r ll)
      [misery prefs names (improve prefs names chores r ll)]).2.1 = false := by
    have := improvePass_all_none prefs names ll
      (askingOrder prefs names (improve prefs names chores r ll) (resolveAskers r names))
      (improve prefs names chores r ll) false
      [misery prefs names (improve prefs names chores r ll)] hnone2
    simp only [improvePass]
    rw [this]
  have hfuel : fuelFor prefs names (improve prefs names chores r ll) =
      natBound ((totalCost prefs names (improve prefs names chores r ll) -
        lowerBound prefs names (improve prefs names chores r ll)) / epsq) + 1 := rfl
  show (improveFull prefs names (improve prefs names chores r ll) r ll).1 = _
  have hful : improveFull prefs names (improve prefs names chores r ll) r ll =
      improveLoop prefs names ll
        (askingOrder prefs names (improve prefs names chores r ll) (resolveAskers r names))
        (fuelFor prefs names (improve prefs names chores r ll))
        (improve prefs names chores r ll)
        [misery prefs names (improve prefs names chores r ll)] := rfl
  rw [hful, hfuel, improveLoop_succ_false prefs names ll _ _ _ _ hpass]

/-- C10: when `improve` is called with an empty `restricted_askers` list, the
Python truthiness test makes the asker set silently become *all* people (just
as with `None`); the restriction only takes effect for a non-empty subset. -/
theorem improve_empty_restriction (prefs : String → String → ℚ)
    (names chores : List String) (ll : Bool) :
    improve prefs names chores (some []) ll = improve prefs names chores none ll ∧
    resolveAskers (some []) names = names ∧
    (∀ l : List String, l ≠ [] → resolveAskers (some l) names = l) := by
  refine ⟨rfl, rfl, ?_⟩
  intro l hl
  simp [resolveAskers, hl]

/-- Witness for C10: a concrete non-empty restriction is kept as-is. -/
theorem improve_empty_restriction_witness :
    (["B"] : List String) ≠ [] ∧ resolveAskers (some ["B"]) ["A", "B"] = ["B"] :=
  ⟨by decide,
   (improve_empty_restriction prefsABC ["A", "B"] ["IA", "IB"] true).2.2 ["B"] (by decide)⟩

/-- Witness for C4 on the concrete scenario: the pass at the returned
assignment applies no exchange. -/
theorem improve_terminates_witness :
    (["A", "B", "C"] : List String).Nodup ∧
    (["A", "B", "C"] : List String).length = (["IA", "IB", "IC"] : List String).length ∧
    (∀ n ∈ resolveAskers none ["A", "B", "C"], n ∈ (["A", "B", "C"] : List String)) ∧
    (∀ h1 : List ℚ, (improvePass prefsABC ["A", "B", "C"] true
        (askingOrder prefsABC ["A", "B", "C"] ["IA", "IB", "IC"]
          (resolveAskers none ["A", "B", "C"]))
        (improve prefsABC ["A", "B", "C"] ["IA", "IB", "IC"] none true) h1).2.1 = false) :=
  ⟨by decide, by decide, by decide,
   (improve_terminates prefsABC ["A", "B", "C"] ["IA", "IB", "IC"] none true
     (by decide) (by decide) (by decide)).1⟩

/-- Witness for C3 on the concrete scenario: the misery history of the run is
strictly decreasing. -/
theorem improve_cost_monotone_witness :
    (["A", "B", "C"] : List String).Nodup ∧
    (["A", "B", "C"] : List String).length = (["IA", "IB", "IC"] : List String).length ∧
    (∀ n ∈ resolveAskers none ["A", "B", "C"], n ∈ (["A", "B", "C"] : List String)) ∧
    List.Chain' (fun a b => b < a)
      (improveFull prefsABC ["A", "B", "C"] ["IA", "IB", "IC"] none true).2 :=
  ⟨by decide, by decide, by decide,
   (improve_cost_monotone prefsABC ["A", "B", "C"] ["IA", "IB", "IC"] none true
     (by decide) (by decide) (by decide)).1⟩

/-- Witness for C5 on the concrete scenario: re-running `improve` on its own
output returns it unchanged. -/
theorem improve_idempotent_witness :
    (["A", "B", "C"] : List String).Nodup ∧
    (["A", "B", "C"] : List String).length = (["IA", "IB", "IC"] : List String).length ∧
    (∀ n ∈ resolveAskers none ["A", "B", "C"], n ∈ (["A", "B", "C"] : List String)) ∧
    improve prefsABC ["A", "B", "C"]
        (improve prefsABC ["A", "B", "C"] ["IA", "IB", "IC"] none true) none true =
      improve prefsABC ["A", "B", "C"] ["IA", "IB", "IC"] none true :=
  ⟨by decide, by decide, by decide,
   improve_idempotent prefsABC ["A", "B", "C"] ["IA", "IB", "IC"] none true
     (by decide) (by decide) (by decide)⟩

/-- Python `dict` update semantics: inserting `(k, v)` overwrites an existing
key in place, otherwise appends. -/
def pydictInsert (d : List (String × String)) (k v : String) : List (String × String) :=
  if k ∈ d.map Prod.fst then d.map (fun p => if p.1 = k then (k, v) else p)
  else d ++ [(k, v)]

/-- `dict(pairs)` built left to right with Python update semantics. -/
def pydict (pairs : List (String × String)) : List (String × String) :=
  pairs.foldl (fun d p => pydictInsert d p.1 p.2) []

/-- `add_to_history(hist, mon, names, chores)` restricted to its pure effect on
the in-memory history list: the source overwrites only when `hist[-1][0]==mon`
(the *last* record), otherwise appends. -/
def add_to_history (hist : List (ℕ × List (String × String))) (mon : ℕ)
    (names chores : List String) : List (ℕ × List (String × String)) :=
  match hist.getLast? with
  | some last =>
    if last.1 = mon then hist.dropLast ++ [(mon, pydict (names.zip chores))]
    else hist ++ [(mon, pydict (names.zip chores))]
  | none => hist ++ [(mon, pydict (names.zip chores))]

/-- Counterexample to C7 as stated: with a history whose *first* record is for
date 1 and whose last record is for date 2, re-adding date 1 does not
overwrite the existing record — it appends a duplicate, leaving two records
with date 1. -/
theorem add_to_history_counterexample :
    add_to_history [(1, [("A", "X")]), (2, [("B", "Y")])] 1 ["A"] ["Z"] =
      [(1, [("A", "X")]), (2, [("B", "Y")]), (1, [("A", "Z")])] ∧
    (add_to_history [(1, [("A", "X")]), (2, [("B", "Y")])] 1 ["A"] ["Z"]).countP
      (fun rec => rec.1 == 1) = 2 := by
  constructor <;> rfl

/-- C7 (amended): `add_to_history` overwrites in place only when the given
date equals the date of the *last* record; otherwise a new record is appended
even if the date occurs earlier in the history.  Consequently
at-most-one-record-per-date is maintained whenever the date, if already
present, is the last record's date. -/
theorem add_to_history_spec (hist : List (ℕ × List (String × String))) (mon : ℕ)
    (names chores : List String) :
    (∀ last, hist.getLast? = some last → last.1 = mon →
      add_to_history hist mon names chores =
        hist.dropLast ++ [(mon, pydict (names.zip chores))]) ∧
    ((∀ last, hist.getLast? = some last → last.1 ≠ mon) →
      add_to_history hist mon names chores =
        hist ++ [(mon, pydict (names.zip chores))]) ∧
    ((hist.map Prod.fst).Nodup →
      (mon ∈ hist.map Prod.fst →
        ∃ last, hist.getLast? = some last ∧ last.1 = mon) →
      ((add_to_history hist mon names chores).map Prod.fst).Nodup) := by
  have hover : ∀ last, hist.getLast? = some last → last.1 = mon →
      add_to_history hist mon names chores =
        hist.dropLast ++ [(mon, pydict (names.zip chores))] := by
    intro last hlast hmon
    simp only [add_to_history]
    rw [hlast]
    simp [hmon]
  refine ⟨hover, ?_, ?_⟩
  · intro hne
    simp only [add_to_history]
    rcases hlast : hist.getLast? with _ | last
    · rfl
    · simp only
      rw [if_neg (hne last hlast)]
  · intro hnd hmon
    rcases hlast : hist.getLast? with _ | last
    · have hnil : hist = [] := by
        rcases hist with _ | ⟨a, t⟩
        · rfl
        · rw [List.getLast?_eq_getLast _ (by simp)] at hlast
          simp at hlast
      subst hnil
      simp [add_to_history]
    · by_cases hm : last.1 = mon
      · rw [hover last hlast hm]
        have hsplit : hist = hist.dropLast ++ [last] := by
          rcases hist with _ | ⟨a, t⟩
          · simp at hlast
          · have hne2 : a :: t ≠ [] := by simp
            rw [List.getLast?_eq_getLast _ hne2] at hlast
            have hl2 : last = (a :: t).getLast hne2 := by simpa using hlast.symm
            rw [hl2]
            exact (List.dropLast_append_getLast hne2).symm
        rw [List.map_append]
        rw [hsplit, List.map_append] at hnd
        simpa [hm] using hnd
      · have hnotin : mon ∉ hist.map Prod.fst := by
          intro hin
          obtain ⟨last1, hlast1, hm1⟩ := hmon hin
          rw [hlast] at hlast1
          have he2 : last1 = last := by simpa using hlast1.symm
          exact hm (he2 ▸ hm1)
        simp only [add_to_history]
        rw [hlast]
        simp only
        rw [if_neg hm, List.map_append]
        rw [List.nodup_append]
        refine ⟨hnd, by simp, ?_⟩
        intro x hx hx1
        simp at hx1
        exact hnotin (hx1 ▸ hx)

/-- Witness for the amended C7: re-processing the date of the last record
overwrites it in place. -/
theorem add_to_history_spec_witness :
    ([(3, [("A", "X")])] : List (ℕ × List (String × String))).getLast? =
      some (3, [("A", "X")]) ∧
    add_to_history [(3, [("A", "X")])] 3 ["A"] ["Z"] =
      ([(3, [("A", "X")])] : List (ℕ × List (String × String))).dropLast ++
        [(3, pydict (["A"].zip ["Z"]))] :=
  ⟨rfl, (add_to_history_spec [(3, [("A", "X")])] 3 ["A"] ["Z"]).1
    (3, [("A", "X")]) rfl rfl⟩

/-- Result of the active-set reconciliation of `get_current_situation`
(its lines 150-190, after the interactive validation loops): the branch for
equal counts evaluates `", ".join(chores)` *before* the local `chores` is
assigned, which in Python raises `UnboundLocalError`. -/
inductive SituationResult where
  | ok (chores : List String)
  | unboundLocalError
deriving DecidableEq

/-- The three-way reconciliation of `get_current_situation`: `sk` is the
validated skip list used when chores outnumber people.  In the equal-count
branch the source prints the undefined local `chores` before the assignment
`chores = all_chores[:]`, so that branch faults instead of returning. -/
def get_current_situation_core (names all_chores sk : List String) : SituationResult :=
  if names.length = all_chores.length then
    SituationResult.unboundLocalError
  else if all_chores.length < names.length then
    SituationResult.ok (all_chores ++ List.replicate (names.length - all_chores.length) "Wild")
  else
    SituationResult.ok (all_chores.filter fun c => decide (c ∉ sk))

/-- C8 (code bug): whenever the number of people equals the number of chores,
the identity branch of the reconciliation faults (UnboundLocalError) instead
of returning the chores list unchanged; padding and exclusion are reached
only in the strict-inequality cases. -/
theorem get_current_situation_equal_faults (names all_chores sk : List String)
    (h : names.length = all_chores.length) :
    get_current_situation_core names all_chores sk = SituationResult.unboundLocalError := by
  simp [get_current_situation_core, h]

/-- Witness for C8: two people, two chores — the source crashes where the
specification promises the identity result. -/
theorem get_current_situation_equal_faults_witness :
    (["A", "B"] : List String).length = (["X", "Y"] : List String).length ∧
    get_current_situation_core ["A", "B"] ["X", "Y"] [] =
      SituationResult.unboundLocalError :=
  ⟨by decide, get_current_situation_equal_faults ["A", "B"] ["X", "Y"] [] (by decide)⟩

/-- Decimal digit character, as produced by Python `str` for one digit. -/
def digitChar (d : ℕ) : Char :=
  if d = 0 then '0' else if d = 1 then '1' else if d = 2 then '2'
  else if d = 3 then '3' else if d = 4 then '4' else if d = 5 then '5'
  else if d = 6 then '6' else if d = 7 then '7' else if d = 8 then '8' else '9'

/-- Decimal digits of `n`, most significant first (with fuel). -/
def natDigits : ℕ → ℕ → List ℕ
  | 0, _ => []
  | fuel + 1, n => if n < 10 then [n] else natDigits fuel (n / 10) ++ [n % 10]

/-- `str(n)` for a natural number: its decimal digit string. -/
def natToStr (n : ℕ) : String := ((natDigits (n + 1) n).map digitChar).asString

def digitsVal (l : List ℕ) : ℕ := l.foldl (fun a d => 10 * a + d) 0

theorem digitsVal_append (l : List ℕ) (d : ℕ) :
    digitsVal (l ++ [d]) = 10 * digitsVal l + d := by
  simp [digitsVal, List.foldl_append]

theorem digitsVal_natDigits : ∀ (fuel n : ℕ), n < fuel →
    digitsVal (natDigits fuel n) = n := by
  intro fuel
  induction fuel with
  | zero => intro n h; omega
  | succ fuel ih =>
    intro n h
    by_cases h10 : n < 10
    · simp [natDigits, h10, digitsVal]
    · have hdiv : n / 10 < fuel := by
        have h1 : n / 10 < n := Nat.div_lt_self (by omega) (by omega)
        omega
      simp only [natDigits, if_neg h10]
      rw [digitsVal_append, ih (n / 10) hdiv]
      omega

theorem natDigits_lt_ten : ∀ (fuel n : ℕ), n < fuel → ∀ d ∈ natDigits fuel n, d < 10 := by
  intro fuel
  induction fuel with
  | zero => intro n h; omega
  | succ fuel ih =>
    intro n h d hd
    by_cases h10 : n < 10
    · simp [natDigits, h10] at hd
      omega
    · have hdiv : n / 10 < fuel := by
        have h1 : n / 10 < n := Nat.div_lt_self (by omega) (by omega)
        omega
      simp only [natDigits, if_neg h10] at hd
      rcases List.mem_append.mp hd with hd | hd
      · exact ih (n / 10) hdiv d hd
      · simp at hd
        subst hd
        exact Nat.mod_lt n (by omega)

theorem digitChar_inj (a b : ℕ) (ha : a < 10) (hb : b < 10)
    (h : digitChar a = digitChar b) : a = b := by
  interval_cases a <;> interval_cases b <;> simp_all [digitChar]

theorem map_digitChar_inj : ∀ (l1 l2 : List ℕ), (∀ d ∈ l1, d < 10) → (∀ d ∈ l2, d < 10) →
    l1.map digitChar = l2.map digitChar → l1 = l2 := by
  intro l1
  induction l1 with
  | nil =>
    intro l2 _ _ h
    rcases l2 with _ | ⟨b, l2⟩
    · rfl
    · simp at h
  | cons a l1 ih =>
    intro l2 h1 h2 h
    rcases l2 with _ | ⟨b, l2⟩
    · simp at h
    · simp only [List.map_cons, List.cons.injEq] at h
      have hab : a = b :=
        digitChar_inj a b (h1 a (by simp)) (h2 b (by simp)) h.1
      rw [hab, ih l2 (fun d hd => h1 d (List.mem_cons_of_mem a hd))
        (fun d hd => h2 d (List.mem_cons_of_mem b hd)) h.2]

theorem natToStr_inj (n m : ℕ) (h : natToStr n = natToStr m) : n = m := by
  simp only [natToStr, List.asString] at h
  have hlists : (natDigits (n + 1) n).map digitChar = (natDigits (m + 1) m).map digitChar := by
    exact congrArg String.data h
  have hdig : natDigits (n + 1) n = natDigits (m + 1) m :=
    map_digitChar_inj _ _ (natDigits_lt_ten (n + 1) n (by omega))
      (natDigits_lt_ten (m + 1) m (by omega)) hlists
  have h1 := digitsVal_natDigits (n + 1) n (by omega)
  have h2 := digitsVal_natDigits (m + 1) m (by omega)
  rw [← h1, ← h2, hdig]

/-- The Python substring test `"Wild" in chore`. -/
def hasWild (c : String) : Bool := decide (List.IsInfix "Wild".toList c.toList)

/-- Stripping the disambiguation tag: `if "Wild" in chore: chore = "Wild"`. -/
def stripWild (c : String) : String := if hasWild c then "Wild" else c

theorem hasWild_append (s : String) : hasWild ("Wild" ++ s) = true := by
  simp only [hasWild, decide_eq_true_eq]
  refine ⟨[], s.toList, ?_⟩
  have : ("Wild" ++ s).toList = "Wild".toList ++ s.toList := by
    simp [String.toList]
  rw [this]
  simp

theorem string_append_left_cancel (s a b : String) (h : s ++ a = s ++ b) : a = b := by
  have hdata : s.data ++ a.data = s.data ++ b.data := by
    have h1 := congrArg String.data h
    simpa [String.data_append] using h1
  have := List.append_cancel_left hdata
  rcases a with ⟨la⟩
  rcases b with ⟨lb⟩
  exact congrArg String.mk (by simpa using this)

/-- The tagging loop of `get_from_current_cycle`: each occurrence of `"Wild"`
is replaced by `"Wild" ++ str(counter)` with an incrementing counter. -/
def tagWildsAux : List String → ℕ → List String
  | [], _ => []
  | c :: rest, k =>
    if c = "Wild" then ("Wild" ++ natToStr (k + 1)) :: tagWildsAux rest (k + 1)
    else c :: tagWildsAux rest k

def tagWilds (l : List String) : List String := tagWildsAux l 0

/-- Every item is either the placeholder itself or free of the placeholder
name as a substring (so that tagging and stripping are inverse). -/
def CleanList (l : List String) : Prop := ∀ c ∈ l, c = "Wild" ∨ hasWild c = false

theorem tagWildsAux_length : ∀ (l : List String) (k : ℕ),
    (tagWildsAux l k).length = l.length := by
  intro l
  induction l with
  | nil => intro k; rfl
  | cons c rest ih =>
    intro k
    by_cases hc : c = "Wild" <;> simp [tagWildsAux, hc, ih]

theorem tagWildsAux_mem : ∀ (l : List String) (k : ℕ), CleanList l →
    ∀ x ∈ tagWildsAux l k,
      (x ∈ l ∧ hasWild x = false) ∨ ∃ j, k < j ∧ x = "Wild" ++ natToStr j := by
  intro l
  induction l with
  | nil => intro k _ x hx; simp [tagWildsAux] at hx
  | cons c rest ih =>
    intro k hclean x hx
    have hcleanr : CleanList rest := fun d hd => hclean d (List.mem_cons_of_mem c hd)
    by_cases hc : c = "Wild"
    · simp only [tagWildsAux, if_pos hc] at hx
      rcases List.mem_cons.mp hx with he | hx
      · exact Or.inr ⟨k + 1, by omega, he⟩
      · rcases ih (k + 1) hcleanr x hx with ⟨h1, h2⟩ | ⟨j, hj, he⟩
        · exact Or.inl ⟨List.mem_cons_of_mem c h1, h2⟩
        · exact Or.inr ⟨j, by omega, he⟩
    · simp only [tagWildsAux, if_neg hc] at hx
      rcases List.mem_cons.mp hx with he | hx
      · subst he
        rcases hclean x (by simp) with he | he
        · exact absurd he hc
        · exact Or.inl ⟨by simp, he⟩
      · rcases ih k hcleanr x hx with ⟨h1, h2⟩ | ⟨j, hj, he⟩
        · exact Or.inl ⟨List.mem_cons_of_mem c h1, h2⟩
        · exact Or.inr ⟨j, by omega, he⟩

theorem wildTag_ne (j k : ℕ) (h : j ≠ k) :
    ("Wild" ++ natToStr j : String) ≠ "Wild" ++ natToStr k := by
  intro he
  exact h (natToStr_inj j k (string_append_left_cancel "Wild" _ _ he))

theorem tagWildsAux_nodup : ∀ (l : List String) (k : ℕ), CleanList l →
    (l.filter fun c => decide (c ≠ "Wild")).Nodup → (tagWildsAux l k).Nodup := by
  intro l
  induction l with
  | nil => intro k _ _; simp [tagWildsAux]
  | cons c rest ih =>
    intro k hclean hnd
    have hcleanr : CleanList rest := fun d hd => hclean d (List.mem_cons_of_mem c hd)
    by_cases hc : c = "Wild"
    · simp only [tagWildsAux, if_pos hc]
      rw [List.nodup_cons]
      have hndr : (rest.filter fun c => decide (c ≠ "Wild")).Nodup := by
        have : (c :: rest).filter (fun c => decide (c ≠ "Wild")) =
            rest.filter (fun c => decide (c ≠ "Wild")) := by
          simp [hc]
        rwa [this] at hnd
      refine ⟨?_, ih (k + 1) hcleanr hndr⟩
      intro hmem
      rcases tagWildsAux_mem rest (k + 1) hcleanr _ hmem with ⟨_, h2⟩ | ⟨j, hj, he⟩
      · rw [hasWild_append] at h2
        simp at h2
      · exact wildTag_ne (k + 1) j (by omega) he
    · simp only [tagWildsAux, if_neg hc]
      rw [List.nodup_cons]
      have hfilter : (c :: rest).filter (fun c => decide (c ≠ "Wild")) =
          c :: rest.filter (fun c => decide (c ≠ "Wild")) := by
        simp [hc]
      rw [hfilter, List.nodup_cons] at hnd
      refine ⟨?_, ih k hcleanr hnd.2⟩
      intro hmem
      have hcw : hasWild c = false := by
        rcases hclean c (by simp) with he | he
        · exact absurd he hc
        · exact he
      rcases tagWildsAux_mem rest k hcleanr _ hmem with ⟨h1, _⟩ | ⟨j, hj, he⟩
      · exact hnd.1 (List.mem_filter.mpr ⟨h1, by simpa using hc⟩)
      · rw [he, hasWild_append] at hcw
        simp at hcw

theorem tagWildsAux_strip : ∀ (l : List String) (k : ℕ), CleanList l →
    (tagWildsAux l k).map stripWild = l := by
  intro l
  induction l with
  | nil => intro k _; rfl
  | cons c rest ih =>
    intro k hclean
    have hcleanr : CleanList rest := fun d hd => hclean d (List.mem_cons_of_mem c hd)
    by_cases hc : c = "Wild"
    · simp only [tagWildsAux, if_pos hc, List.map_cons]
      rw [ih (k + 1) hcleanr]
      simp [stripWild, hasWild_append, hc]
    · simp only [tagWildsAux, if_neg hc, List.map_cons]
      rw [ih k hcleanr]
      have hcw : hasWild c = false := by
        rcases hclean c (by simp) with he | he
        · exact absurd he hc
        · exact he
      simp [stripWild, hcw]

theorem tagWilds_length (l : List String) : (tagWilds l).length = l.length :=
  tagWildsAux_length l 0

theorem tagWilds_nodup (l : List String) (hclean : CleanList l)
    (hnd : (l.filter fun c => decide (c ≠ "Wild")).Nodup) : (tagWilds l).Nodup :=
  tagWildsAux_nodup l 0 hclean hnd

theorem tagWilds_strip (l : List String) (hclean : CleanList l) :
    (tagWilds l).map stripWild = l :=
  tagWildsAux_strip l 0 hclean

/-- Failure modes of `get_from_current_cycle` and its caller model:
`baselineNotFound` is the source's assert ("Current chore cycle doesn't exist
in records"); `emptyRecord` and `emptyFilter` are the `ValueError`s raised by
unpacking `zip(*...)` of an empty sequence (record empty / no record person
present this week); `extrasExhausted` is the `IndexError` from
`extra_chores[0]` on an empty list. -/
inductive Fault where
  | baselineNotFound
  | emptyRecord
  | emptyFilter
  | extrasExhausted
deriving DecidableEq

/-- The record pairs restricted to people present this week. -/
def filteredPairs (rec : List (String × String)) (names : List String) :
    List (String × String) :=
  rec.filter fun p => decide (p.1 ∈ names)

/-- `cc_names`: people of the opening record present this week. -/
def ccNames (rec : List (String × String)) (names : List String) : List String :=
  (filteredPairs rec names).map Prod.fst

/-- `cc_chores` after wildcard tagging. -/
def ccChores (rec : List (String × String)) (names : List String) : List String :=
  tagWilds ((filteredPairs rec names).map Prod.snd)

/-- This week's chores after wildcard tagging. -/
def weekChores (chores : List String) : List String := tagWilds chores

/-- `extra_chores`: this week's (tagged) chores that are not in the (tagged)
opening-record chores. -/
def extrasOf (rec : List (String × String)) (names chores : List String) : List String :=
  (weekChores chores).filter fun c => decide (c ∉ ccChores rec names)

/-- The keep rule of the assignment loop over abstract data: a person keeps
their opening-record chore exactly when they appear in the filtered record and
that (tagged) chore is still active this week. -/
def keepFn (ccN ccC tC : List String) (n : String) : Option String :=
  if n ∈ ccN then
    if ccC.getD (ccN.indexOf n) "" ∈ tC then some (ccC.getD (ccN.indexOf n) "")
    else none
  else none

/-- The keep rule instantiated with the data of `get_from_current_cycle`. -/
def keepOf (rec : List (String × String)) (names chores : List String) (n : String) :
    Option String :=
  keepFn (ccNames rec names) (ccChores rec names) (weekChores chores) n

/-- The `for name in names` loop of `get_from_current_cycle`: keep the
still-valid opening chore, otherwise draw the next extra (FIFO); an empty
extras list faults like `extra_chores[0]`. -/
def assignLoop (ccN ccC tC : List String) :
    List String → List String → Except Fault (List String)
  | [], _ => Except.ok []
  | n :: rest, extras =>
    if n ∈ ccN then
      if ccC.getD (ccN.indexOf n) "" ∈ tC then
        (assignLoop ccN ccC tC rest extras).map
          fun out => ccC.getD (ccN.indexOf n) "" :: out
      else
        match extras with
        | [] => Except.error Fault.extrasExhausted
        | e :: es => (assignLoop ccN ccC tC rest es).map fun out => e :: out
    else
      match extras with
      | [] => Except.error Fault.extrasExhausted
      | e :: es => (assignLoop ccN ccC tC rest es).map fun out => e :: out

/-- `get_from_current_cycle(hist, moncy, names, chores)`: find the record of
the cycle-opening Monday (scanning `reversed(hist)`), restrict it to this
week's people, disambiguate wildcards, and rebuild this week's baseline;
faults model the exceptions of the source. -/
def get_from_current_cycle (hist : List (ℕ × List (String × String))) (moncy : ℕ)
    (names chores : List String) : Except Fault (List String) :=
  match hist.reverse.find? (fun h => h.1 == moncy) with
  | none => Except.error Fault.baselineNotFound
  | some h =>
    match h.2 with
    | [] => Except.error Fault.emptyRecord
    | _ :: _ =>
      match filteredPairs h.2 names with
      | [] => Except.error Fault.emptyFilter
      | _ :: _ =>
        (assignLoop (ccNames h.2 names) (ccChores h.2 names) (weekChores chores)
          names (extrasOf h.2 names chores)).map
          fun out => out.map stripWild

/-- `deque.rotate(k)` on a list: rotate right by `k` positions. -/
def rotateRight (l : List String) (k : ℕ) : List String :=
  if l.length = 0 then l
  else l.drop (l.length - k % l.length) ++ l.take (l.length - k % l.length)

/-- The baseline-selection logic of `main` for a continuation week: use the
cycle-opening record, and on *any* exception (the bare `except:`) fall back to
the fresh-cycle rotation with full optimization selected. -/
def mainBaseline (hist : List (ℕ × List (String × String))) (moncy : ℕ)
    (names chores : List String) (fourweekno : ℕ) : List String × Bool :=
  match get_from_current_cycle hist moncy names chores with
  | Except.ok c => (c, false)
  | Except.error _ => (rotateRight chores (fourweekno % chores.length), true)

theorem assignLoop_cons_keep (ccN ccC tC : List String) (n : String)
    (rest extras : List String) (c : String) (h : keepFn ccN ccC tC n = some c) :
    assignLoop ccN ccC tC (n :: rest) extras =
      (assignLoop ccN ccC tC rest extras).map fun out => c :: out := by
  unfold keepFn at h
  by_cases hn : n ∈ ccN
  · rw [if_pos hn] at h
    by_cases hc : ccC.getD (ccN.indexOf n) "" ∈ tC
    · rw [if_pos hc] at h
      have hce : ccC.getD (ccN.indexOf n) "" = c := by simpa using h
      simp only [assignLoop, if_pos hn, hce]
      rw [if_pos (hce ▸ hc)]
    · rw [if_neg hc] at h
      simp at h
  · rw [if_neg hn] at h
    simp at h

theorem assignLoop_cons_draw (ccN ccC tC : List String) (n : String)
    (rest extras : List String) (h : keepFn ccN ccC tC n = none) :
    assignLoop ccN ccC tC (n :: rest) extras =
      match extras with
      | [] => Except.error Fault.extrasExhausted
      | e :: es => (assignLoop ccN ccC tC rest es).map fun out => e :: out := by
  unfold keepFn at h
  by_cases hn : n ∈ ccN
  · rw [if_pos hn] at h
    by_cases hc : ccC.getD (ccN.indexOf n) "" ∈ tC
    · rw [if_pos hc] at h; simp at h
    · simp only [assignLoop, if_pos hn, if_neg hc]
  · simp only [assignLoop, if_neg hn]

theorem assignLoop_spec (ccN ccC tC : List String) :
    ∀ (rest extras : List String),
      rest.countP (fun n => (keepFn ccN ccC tC n).isNone) = extras.length →
      ∃ out, assignLoop ccN ccC tC rest extras = Except.ok out ∧
        out.length = rest.length ∧
        out.Perm (rest.filterMap (keepFn ccN ccC tC) ++ extras) ∧
        (∀ p ∈ rest.zip out, ∀ c, keepFn ccN ccC tC p.1 = some c → p.2 = c) ∧
        ((rest.zip out).filterMap
          (fun p => if (keepFn ccN ccC tC p.1).isSome then none else some p.2) = extras) := by
  intro rest
  induction rest with
  | nil =>
    intro extras hcount
    have hex : extras = [] := by
      simpa using (List.length_eq_zero.mp (by simpa using hcount.symm))
    subst hex
    exact ⟨[], rfl, rfl, by simp, by simp, by simp⟩
  | cons n rest ih =>
    intro extras hcount
    rcases hk : keepFn ccN ccC tC n with _ | c
    · -- draw case
      rw [List.countP_cons] at hcount
      simp only [hk, Option.isNone_none, if_pos] at hcount
      rcases extras with _ | ⟨e, es⟩
      · simp at hcount
      · have hcount2 : rest.countP (fun n => (keepFn ccN ccC tC n).isNone) = es.length := by
          simpa using hcount
        obtain ⟨out, hok, hlen, hperm, hkeep, hdraw⟩ := ih es hcount2
        refine ⟨e :: out, ?_, by simpa using hlen, ?_, ?_, ?_⟩
        · rw [assignLoop_cons_draw ccN ccC tC n rest (e :: es) hk]
          simp only [hok, Except.map]
        · simp only [List.filterMap_cons, hk]
          refine (hperm.cons e).trans ?_
          exact (List.perm_middle).symm
        · intro p hp c hc
          rcases List.mem_cons.mp (by simpa using hp) with he | hp1
          · exfalso
            have : p.1 = n := by rw [he]
            rw [this, hk] at hc
            simp at hc
          · exact hkeep p hp1 c hc
        · simp only [List.zip_cons_cons, List.filterMap_cons, hk, Option.isNone_none]
          simp only [Option.isSome_none, Bool.false_eq_true, if_false]
          rw [hdraw]
    · -- keep case
      rw [List.countP_cons] at hcount
      simp only [hk, Option.isNone_some, if_neg] at hcount
      have hcount2 : rest.countP (fun n => (keepFn ccN ccC tC n).isNone) = extras.length := by
        simpa using hcount
      obtain ⟨out, hok, hlen, hperm, hkeep, hdraw⟩ := ih extras hcount2
      refine ⟨c :: out, ?_, by simpa using hlen, ?_, ?_, ?_⟩
      · rw [assignLoop_cons_keep ccN ccC tC n rest extras c hk]
        simp only [hok, Except.map]
      · simp only [List.filterMap_cons, hk]
        exact (hperm.cons c)
      · intro p hp c1 hc
        rcases List.mem_cons.mp (by simpa using hp) with he | hp1
        · have h1 : p.1 = n := by rw [he]
          have h2 : p.2 = c := by rw [he]
          rw [h1, hk] at hc
          rw [h2]
          simpa using hc
        · exact hkeep p hp1 c1 hc
      · simp only [List.zip_cons_cons, List.filterMap_cons, hk]
        simp only [Option.isSome_some, if_true]
        rw [hdraw]

theorem length_filterMap_eq_countP (f : String → Option String) :
    ∀ (l : List String), (l.filterMap f).length = l.countP fun a => (f a).isSome := by
  intro l
  induction l with
  | nil => rfl
  | cons a l ih =>
    rw [List.filterMap_cons, List.countP_cons]
    rcases hf : f a with _ | b
    · simp [hf, ih]
    · simp [hf, ih]

theorem keepFn_some_iff (ccN ccC tC : List String) (n : String) (c : String) :
    keepFn ccN ccC tC n = some c ↔
      n ∈ ccN ∧ c = ccC.getD (ccN.indexOf n) "" ∧ c ∈ tC := by
  unfold keepFn
  by_cases hn : n ∈ ccN
  · rw [if_pos hn]
    by_cases hc : ccC.getD (ccN.indexOf n) "" ∈ tC
    · rw [if_pos hc]
      constructor
      · intro h
        have hce : c = ccC.getD (ccN.indexOf n) "" := by simpa using h.symm
        exact ⟨hn, hce, hce ▸ hc⟩
      · rintro ⟨_, h2, _⟩
        rw [h2]
    · rw [if_neg hc]
      constructor
      · intro h; simp at h
      · rintro ⟨_, h2, h3⟩
        exact absurd (h2 ▸ h3) hc
  · rw [if_neg hn]
    constructor
    · intro h; simp at h
    · rintro ⟨h1, _, _⟩; exact absurd h1 hn

theorem keepFn_inj (ccN ccC tC : List String) (hccnd : ccC.Nodup)
    (hlen2 : ccN.length = ccC.length) (m n c1 : String)
    (hm : keepFn ccN ccC tC m = some c1) (hn : keepFn ccN ccC tC n = some c1) : m = n := by
  obtain ⟨hm1, hm2, _⟩ := (keepFn_some_iff ccN ccC tC m c1).mp hm
  obtain ⟨hn1, hn2, _⟩ := (keepFn_some_iff ccN ccC tC n c1).mp hn
  have him : ccN.indexOf m < ccC.length := hlen2 ▸ indexOf_lt ccN m hm1
  have hin : ccN.indexOf n < ccC.length := hlen2 ▸ indexOf_lt ccN n hn1
  have heq : ccC[ccN.indexOf m] = ccC[ccN.indexOf n] := by
    rw [← List.getD_eq_getElem ccC "" him, ← List.getD_eq_getElem ccC "" hin, ← hm2, ← hn2]
  have hidx : ccN.indexOf m = ccN.indexOf n := (hccnd.getElem_inj_iff).mp heq
  have h1 := getD_indexOf ccN m hm1
  have h2 := getD_indexOf ccN n hn1
  rw [← h1, ← h2, hidx]

theorem keepers_perm (ccN ccC tC names : List String) (hnd : names.Nodup)
    (hccNnd : ccN.Nodup) (hccnd : ccC.Nodup) (htCnd : tC.Nodup)
    (hlen2 : ccN.length = ccC.length) (hccsub : ∀ n ∈ ccN, n ∈ names) :
    (names.filterMap (keepFn ccN ccC tC)).Perm
      (tC.filter fun c => decide (c ∈ ccC)) := by
  rw [List.perm_ext_iff_of_nodup]
  · intro c
    constructor
    · intro hc
      obtain ⟨n, _, hkn⟩ := List.mem_filterMap.mp hc
      obtain ⟨hn1, hn2, hn3⟩ := (keepFn_some_iff ccN ccC tC n c).mp hkn
      refine List.mem_filter.mpr ⟨hn3, ?_⟩
      have hin : ccN.indexOf n < ccC.length := hlen2 ▸ indexOf_lt ccN n hn1
      rw [hn2, List.getD_eq_getElem ccC "" hin]
      simpa using List.getElem_mem hin
    · intro hc
      obtain ⟨hc1, hc2⟩ := List.mem_filter.mp hc
      have hc3 : c ∈ ccC := by simpa using hc2
      obtain ⟨j, hj, hcj⟩ := List.mem_iff_getElem.mp hc3
      have hjN : j < ccN.length := hlen2 ▸ hj
      refine List.mem_filterMap.mpr ⟨ccN[j], hccsub _ (List.getElem_mem hjN), ?_⟩
      rw [keepFn_some_iff]
      have hidx : ccN.indexOf ccN[j] = j := List.indexOf_getElem hccNnd j hjN
      refine ⟨List.getElem_mem hjN, ?_, hc1⟩
      rw [hidx, List.getD_eq_getElem ccC "" hj, hcj]
  · exact List.Nodup.filterMap
      (fun a b c1 hc1 hc2 => keepFn_inj ccN ccC tC hccnd hlen2 a b c1 hc1 hc2) hnd
  · exact htCnd.filter _

theorem assign_count (ccN ccC tC names : List String) (hnd : names.Nodup)
    (hccNnd : ccN.Nodup) (hccnd : ccC.Nodup) (htCnd : tC.Nodup)
    (hlen2 : ccN.length = ccC.length) (hccsub : ∀ n ∈ ccN, n ∈ names)
    (hlenN : names.length = tC.length) :
    names.countP (fun n => (keepFn ccN ccC tC n).isNone) =
      (tC.filter fun c => decide (c ∉ ccC)).length := by
  have hsplit := List.length_eq_countP_add_countP
    (fun n => (keepFn ccN ccC tC n).isNone) names
  have hsome : names.countP (fun a => decide ¬((keepFn ccN ccC tC a).isNone = true)) =
      (names.filterMap (keepFn ccN ccC tC)).length := by
    rw [length_filterMap_eq_countP]
    apply List.countP_congr
    intro a _
    rcases keepFn ccN ccC tC a with _ | b <;> simp
  have hkl : (names.filterMap (keepFn ccN ccC tC)).length =
      (tC.filter fun c => decide (c ∈ ccC)).length :=
    (keepers_perm ccN ccC tC names hnd hccNnd hccnd htCnd hlen2 hccsub).length_eq
  have hfl : ((tC.filter fun c => decide (c ∈ ccC)).length +
      (tC.filter fun c => !(decide (c ∈ ccC))).length) = tC.length := by
    have := (List.filter_append_perm (fun c => decide (c ∈ ccC)) tC).length_eq
    simpa using this
  have hneg : tC.filter (fun c => !(decide (c ∈ ccC))) =
      tC.filter (fun c => decide (c ∉ ccC)) := by
    apply List.filter_congr
    intro x _
    simp
  rw [hneg] at hfl
  omega

theorem cc_facts (rec : List (String × String)) (names chores : List String)
    (hkeys : (rec.map Prod.fst).Nodup)
    (hrecclean : CleanList (rec.map Prod.snd))
    (hrecnd : ((rec.map Prod.snd).filter fun c => decide (c ≠ "Wild")).Nodup)
    (hchclean : CleanList chores)
    (hchnd : (chores.filter fun c => decide (c ≠ "Wild")).Nodup) :
    (ccNames rec names).Nodup ∧ (ccChores rec names).Nodup ∧
    (weekChores chores).Nodup ∧
    (ccNames rec names).length = (ccChores rec names).length ∧
    (∀ n ∈ ccNames rec names, n ∈ names) ∧
    (weekChores chores).length = chores.length := by
  have hsubP : (filteredPairs rec names).Sublist rec := List.filter_sublist rec
  have hsnd_sub : ((filteredPairs rec names).map Prod.snd).Sublist (rec.map Prod.snd) :=
    List.Sublist.map Prod.snd hsubP
  have hsnd_clean : CleanList ((filteredPairs rec names).map Prod.snd) := by
    intro c hc
    exact hrecclean c (hsnd_sub.mem hc)
  have hsnd_nd : (((filteredPairs rec names).map Prod.snd).filter
      fun c => decide (c ≠ "Wild")).Nodup :=
    List.Nodup.sublist (List.Sublist.filter _ hsnd_sub) hrecnd
  refine ⟨?_, ?_, ?_, ?_, ?_, ?_⟩
  · exact List.Nodup.sublist (List.Sublist.map Prod.fst hsubP) hkeys
  · exact tagWilds_nodup _ hsnd_clean hsnd_nd
  · exact tagWilds_nodup _ hchclean hchnd
  · simp only [ccNames, ccChores, List.length_map, tagWilds_length]
  · intro n hn
    obtain ⟨p, hp, hpn⟩ := List.mem_map.mp hn
    have := List.mem_filter.mp hp
    rw [← hpn]
    simpa using this.2
  · exact tagWilds_length chores

/-- C6 (amended): when the cycle-opening record exists, at least one of its
people is present this period, the record's keys are distinct and its
assignment is a bijection (no duplicate non-placeholder chore, and only the
exact placeholder name contains `"Wild"`), the current people are distinct and
the current item list (same well-formedness) matches them in length, then
`get_from_current_cycle` succeeds and returns a list index-aligned with the
people that is a permutation of the active items (placeholders being
disambiguated during matching and re-identified afterwards); people whose
opening chore is still active keep it, and every other person draws from the
leftover items in FIFO order. -/
theorem get_from_current_cycle_bijection
    (hist : List (ℕ × List (String × String))) (moncy : ℕ)
    (names chores : List String) (rec0 : ℕ × List (String × String))
    (hfind : hist.reverse.find? (fun h => h.1 == moncy) = some rec0)
    (hfp : filteredPairs rec0.2 names ≠ [])
    (hkeys : (rec0.2.map Prod.fst).Nodup)
    (hrecclean : CleanList (rec0.2.map Prod.snd))
    (hrecnd : ((rec0.2.map Prod.snd).filter fun c => decide (c ≠ "Wild")).Nodup)
    (hchclean : CleanList chores)
    (hchnd : (chores.filter fun c => decide (c ≠ "Wild")).Nodup)
    (hnd : names.Nodup)
    (hlen : names.length = chores.length) :
    ∃ tagged : List String,
      get_from_current_cycle hist moncy names chores =
        Except.ok (tagged.map stripWild) ∧
      tagged.length = names.length ∧
      tagged.Perm (weekChores chores) ∧
      (tagged.map stripWild).Perm chores ∧
      (∀ p ∈ names.zip tagged, ∀ c, keepOf rec0.2 names chores p.1 = some c → p.2 = c) ∧
      ((names.zip tagged).filterMap
        (fun p => if (keepOf rec0.2 names chores p.1).isSome then none else some p.2) =
        extrasOf rec0.2 names chores) := by
  obtain ⟨hccNnd, hccnd, htCnd, hlen2, hccsub, htClen⟩ :=
    cc_facts rec0.2 names chores hkeys hrecclean hrecnd hchclean hchnd
  have hlenN : names.length = (weekChores chores).length := by rw [htClen]; exact hlen
  have hcount : names.countP
      (fun n => (keepFn (ccNames rec0.2 names) (ccChores rec0.2 names)
        (weekChores chores) n).isNone) = (extrasOf rec0.2 names chores).length := by
    exact assign_count _ _ _ names hnd hccNnd hccnd htCnd hlen2 hccsub hlenN
  obtain ⟨out, hok, hlen1, hperm, hkeep, hdraw⟩ :=
    assignLoop_spec (ccNames rec0.2 names) (ccChores rec0.2 names) (weekChores chores)
      names (extrasOf rec0.2 names chores) hcount
  have hget : get_from_current_cycle hist moncy names chores =
      Except.ok (out.map stripWild) := by
    unfold get_from_current_cycle
    rw [hfind]
    simp only
    rcases h2 : rec0.2 with _ | ⟨r, rs⟩
    · rw [h2] at hfp
      simp [filteredPairs] at hfp
    · rcases h3 : filteredPairs (r :: rs) names with _ | ⟨q, qs⟩
      · rw [h2, h3] at hfp
        exact absurd rfl hfp
      · simp only
        rw [← h2, hok]
        rfl
  have hperm2 : out.Perm (weekChores chores) := by
    refine hperm.trans ?_
    have hk := keepers_perm (ccNames rec0.2 names) (ccChores rec0.2 names)
      (weekChores chores) names hnd hccNnd hccnd htCnd hlen2 hccsub
    refine (hk.append_right (extrasOf rec0.2 names chores)).trans ?_
    have hneg : (weekChores chores).filter
        (fun c => !(decide (c ∈ ccChores rec0.2 names))) = extrasOf rec0.2 names chores := by
      apply List.filter_congr
      intro x _
      simp [extrasOf]
    have hfp2 := List.filter_append_perm
      (fun c => decide (c ∈ ccChores rec0.2 names)) (weekChores chores)
    rw [hneg] at hfp2
    exact hfp2
  refine ⟨out, hget, by rw [hlen1], hperm2, ?_, hkeep, hdraw⟩
  have hs : (weekChores chores).map stripWild = chores := tagWilds_strip chores hchclean
  exact hs ▸ hperm2.map stripWild

/-- Counterexample to C6 as stated: the history does contain a record at the
opening date whose assignment is a bijection, and the people/item lists have
equal length, yet `get_from_current_cycle` faults instead of returning an
assignment — none of the record's people is present this period, so the
source's unpacking of the empty filtered zip raises a `ValueError`. -/
theorem get_from_current_cycle_counterexample :
    get_from_current_cycle [(0, [("X", "IX")])] 0 ["N"] ["C1"] =
      Except.error Fault.emptyFilter ∧
    (∃ rec ∈ ([(0, [("X", "IX")])] : List (ℕ × List (String × String))), rec.1 = 0) ∧
    ((["X", "IX"] : List String)).Nodup ∧
    (["N"] : List String).length = (["C1"] : List String).length := by
  refine ⟨rfl, ⟨(0, [("X", "IX")]), by simp, rfl⟩, by decide, rfl⟩

/-- Witness for the amended C6 on the specification's continuation scenario:
opening record `A:X, B:Y, C:Z`; this period people `A, B, D` and items
`X, Y, W`.  The baseline keeps `A:X, B:Y` and gives `D` the sole extra `W`. -/
theorem get_from_current_cycle_bijection_witness :
    get_from_current_cycle [(0, [("A", "X"), ("B", "Y"), ("C", "Z")])] 0
      ["A", "B", "D"] ["X", "Y", "W"] = Except.ok ["X", "Y", "W"] ∧
    (∃ tagged : List String,
      get_from_current_cycle [(0, [("A", "X"), ("B", "Y"), ("C", "Z")])] 0
        ["A", "B", "D"] ["X", "Y", "W"] = Except.ok (tagged.map stripWild) ∧
      tagged.length = (["A", "B", "D"] : List String).length ∧
      tagged.Perm (weekChores ["X", "Y", "W"]) ∧
      (tagged.map stripWild).Perm ["X", "Y", "W"] ∧
      (∀ p ∈ (["A", "B", "D"] : List String).zip tagged, ∀ c,
        keepOf [("A", "X"), ("B", "Y"), ("C", "Z")] ["A", "B", "D"] ["X", "Y", "W"] p.1 =
          some c → p.2 = c) ∧
      (((["A", "B", "D"] : List String).zip tagged).filterMap
        (fun p => if (keepOf [("A", "X"), ("B", "Y"), ("C", "Z")] ["A", "B", "D"]
            ["X", "Y", "W"] p.1).isSome then none else some p.2) =
        extrasOf [("A", "X"), ("B", "Y"), ("C", "Z")] ["A", "B", "D"] ["X", "Y", "W"])) :=
  ⟨rfl,
   get_from_current_cycle_bijection [(0, [("A", "X"), ("B", "Y"), ("C", "Z")])] 0
     ["A", "B", "D"] ["X", "Y", "W"] (0, [("A", "X"), ("B", "Y"), ("C", "Z")])
     rfl (by decide) (by decide) (by unfold CleanList; decide) (by decide)
     (by unfold CleanList; decide) (by decide) (by decide) rfl⟩

theorem assignLoop_error_eq (ccN ccC tC : List String) :
    ∀ (rest extras : List String) (e : Fault),
      assignLoop ccN ccC tC rest extras = Except.error e → e = Fault.extrasExhausted := by
  intro rest
  induction rest with
  | nil =>
    intro extras e h
    simp [assignLoop] at h
  | cons n rest ih =>
    intro extras e h
    rcases hk : keepFn ccN ccC tC n with _ | c
    · rw [assignLoop_cons_draw ccN ccC tC n rest extras hk] at h
      rcases extras with _ | ⟨x, es⟩
      · simp only [] at h
        simpa using h.symm
      · simp only [] at h
        rcases hr : assignLoop ccN ccC tC rest es with e1 | out
        · rw [hr] at h
          simp only [Except.map] at h
          have he : e1 = e := by simpa using h
          rw [← he]
          exact ih es e1 hr
        · rw [hr] at h
          simp [Except.map] at h
    · rw [assignLoop_cons_keep ccN ccC tC n rest extras c hk] at h
      rcases hr : assignLoop ccN ccC tC rest extras with e1 | out
      · rw [hr] at h
        simp only [Except.map] at h
        have he : e1 = e := by simpa using h
        rw [← he]
        exact ih extras e1 hr
      · rw [hr] at h
        simp [Except.map] at h

/-- C9: `get_from_current_cycle` fails with the baseline-not-found fault (the
source's assert) exactly when the history holds no record dated at the
cycle-opening Monday; and on *any* failure — the caller's bare `except:`
catches them all — `main` falls back to fresh-cycle mode: the period's item
list circularly rotated by `cycleIndex mod itemCount` positions, with full
optimization selected. -/
theorem baseline_missing_iff (hist : List (ℕ × List (String × String))) (moncy : ℕ)
    (names chores : List String) (fourweekno : ℕ) :
    (get_from_current_cycle hist moncy names chores =
        Except.error Fault.baselineNotFound ↔
      ∀ rec ∈ hist, rec.1 ≠ moncy) ∧
    (∀ e, get_from_current_cycle hist moncy names chores = Except.error e →
      mainBaseline hist moncy names chores fourweekno =
        (rotateRight chores (fourweekno % chores.length), true)) := by
  constructor
  · constructor
    · intro herr
      rcases hfind : hist.reverse.find? (fun h => h.1 == moncy) with _ | h
      · intro rec hrec hm
        have := List.find?_eq_none.mp hfind rec (List.mem_reverse.mpr hrec)
        simp [hm] at this
      · exfalso
        unfold get_from_current_cycle at herr
        rw [hfind] at herr
        simp only at herr
        rcases h2 : h.2 with _ | ⟨r, rs⟩
        · rw [h2] at herr
          simp at herr
        · rw [h2] at herr
          simp only at herr
          rcases h3 : filteredPairs (r :: rs) names with _ | ⟨q, qs⟩
          · rw [h3] at herr
            simp at herr
          · rw [h3] at herr
            simp only at herr
            rcases hal : assignLoop (ccNames h.2 names) (ccChores h.2 names)
                (weekChores chores) names (extrasOf h.2 names chores) with e1 | out
            · rw [h2] at hal
              rw [hal] at herr
              simp only [Except.map] at herr
              have he1 : e1 = Fault.baselineNotFound := by simpa using herr
              have := assignLoop_error_eq (ccNames (r :: rs) names)
                (ccChores (r :: rs) names) (weekChores chores) names
                (extrasOf (r :: rs) names chores) e1 hal
              rw [he1] at this
              exact Fault.noConfusion this
            · rw [h2] at hal
              rw [hal] at herr
              simp [Except.map] at herr
    · intro hall
      have hfind : hist.reverse.find? (fun h => h.1 == moncy) = none :=
        List.find?_eq_none.mpr (fun x hx => by
          simpa using hall x (List.mem_reverse.mp hx))
      unfold get_from_current_cycle
      rw [hfind]
  · intro e he
    unfold mainBaseline
    rw [he]

/-- Witness for C9: with an empty history the fault is exactly
`baselineNotFound`, and the caller falls back to the rotated fresh-cycle
baseline with full optimization. -/
theorem baseline_missing_iff_witness :
    (get_from_current_cycle [] 0 ["A"] ["X", "Y"] =
        Except.error Fault.baselineNotFound ↔
      ∀ rec ∈ ([] : List (ℕ × List (String × String))), rec.1 ≠ 0) ∧
    mainBaseline [] 0 ["A"] ["X", "Y"] 1 =
      (rotateRight ["X", "Y"] (1 % (["X", "Y"] : List String).length), true) :=
  ⟨(baseline_missing_iff [] 0 ["A"] ["X", "Y"] 1).1,
   (baseline_missing_iff [] 0 ["A"] ["X", "Y"] 1).2 Fault.baselineNotFound rfl⟩
